import Mathlib

/-!
Verification of the `least-recent` LRU cache (a fork of mnemonist's LRUCache
with an eviction event).  The cache stores its doubly-linked recency list in
fixed arrays `forward`/`backward` indexed by integer slots, keeps a key→slot
record `items`, and evicts the tail slot when a new key is inserted into a
full cache.

The shallow embedding below translates `src/most-recent.ts` and
`src/get-pointer-array.ts`.  JavaScript specifics that matter here are kept:
`items` is a plain object, so every key is coerced to a property string
(`keyStr`); typed arrays are zero-initialised total maps; `K`/`V` are plain
arrays whose unset cells read as `undefined` (`Option.none`).
-/

namespace LRU

/-- A cache key: the TypeScript type is `string | number`; numeric keys are
modelled as integers (the resolution of claims below does not depend on
non-integral numeric keys). -/
inductive JSKey where
  | str (s : String)
  | num (n : Int)
deriving DecidableEq

/-- JavaScript property-string coercion of a key, as performed by
`this.items[key]` on a plain object. -/
def keyStr : JSKey → String
  | .str s => s
  | .num n => toString n

/-- Property-string coercion applied to a possibly-`undefined` key
(`this.items[this.K[pointer]]` coerces `undefined` to the string below). -/
def keyProp : Option JSKey → String
  | some k => keyStr k
  | none => "undefined"

/-- JavaScript truthiness of a key value, used by `setpop`'s `if (oldKey)`. -/
def truthy : JSKey → Bool
  | .str s => !(s == "")
  | .num n => !(n == 0)

/-- Pointwise update of a pointer array (`this.forward[i] = v`). -/
def updF (f : Nat → Nat) (i v : Nat) : Nat → Nat :=
  fun j => if j = i then v else f j

/-- Pointwise update of a plain JS array cell (`this.K[i] = x`). -/
def updO {α : Type} (f : Nat → Option α) (i : Nat) (x : Option α) : Nat → Option α :=
  fun j => if j = i then x else f j

/-- Pointwise update of the `items` record (`this.items[s] = p` /
`delete this.items[s]`, the latter storing `none`). -/
def updS (m : String → Option Nat) (s : String) (x : Option Nat) : String → Option Nat :=
  fun t => if t = s then x else m t

/-- The LRUCache state: fields of the class in `src/most-recent.ts`.
`forward`/`backward` are typed arrays (zero-initialised), `K`/`V` plain
arrays (cells `undefined` until written), `items` the key→slot record. -/
structure Cache (ν : Type) where
  capacity : Nat
  forward : Nat → Nat
  backward : Nat → Nat
  K : Nat → Option JSKey
  V : Nat → Option ν
  sz : Nat
  head : Nat
  tail : Nat
  items : String → Option Nat

/-- The state built by the constructor body (after the capacity check):
`_size = 0`, `head = tail = 0`, empty `items`, zeroed pointer arrays. -/
def emptyCache {ν : Type} (capacity : Nat) : Cache ν :=
  { capacity := capacity
    forward := fun _ => 0
    backward := fun _ => 0
    K := fun _ => none
    V := fun _ => none
    sz := 0
    head := 0
    tail := 0
    items := fun _ => none }

/-- `splayOnTop(pointer)`: unlink `pointer` from its place in the list and
relink it before the old head (no-op when it is the head already). -/
def splayOnTop {ν : Type} (c : Cache ν) (pointer : Nat) : Cache ν :=
  if c.head = pointer then c
  else
    let oldHead := c.head
    let previous := c.backward pointer
    let next := c.forward pointer
    let c1 :=
      if c.tail = pointer then { c with tail := previous }
      else { c with backward := updF c.backward next previous }
    let c2 := { c1 with forward := updF c1.forward previous next }
    { c2 with
      backward := updF c2.backward oldHead pointer
      head := pointer
      forward := updF c2.forward pointer oldHead }

/-- `storeKeyValue(pointer, key, value)`: record the key/value in `items`,
`K`, `V` and link `pointer` in front of the current head. -/
def storeKeyValue {ν : Type} (c : Cache ν) (pointer : Nat) (key : JSKey) (value : ν) : Cache ν :=
  { c with
    items := updS c.items (keyStr key) (some pointer)
    K := updO c.K pointer (some key)
    V := updO c.V pointer (some value)
    forward := updF c.forward pointer c.head
    backward := updF c.backward c.head pointer
    head := pointer }

/-- Value overwrite of an existing slot (`this.V[pointer] = value`). -/
def setValue {ν : Type} (c : Cache ν) (pointer : Nat) (value : ν) : Cache ν :=
  { c with V := updO c.V pointer (some value) }

/-- The cache state at the moment `set`/`setpop` emit the `"evicted"` event
on a full cache: the tail pointer has been advanced and the evicted key
deleted from `items`, but `storeKeyValue` has not yet run, so the new entry
is not yet present.  (Source: the eviction branch executes
`pointer = this.tail; this.tail = this.backward[pointer];
delete this.items[this.K[pointer]]; this.events.emit(...)` before
`this.storeKeyValue(pointer, key, value)`.) -/
def evictPhase {ν : Type} (c : Cache ν) : Cache ν :=
  { c with
    tail := c.backward c.tail
    items := updS c.items (keyProp (c.K c.tail)) none }

/-- `set(key, value)`. -/
def set {ν : Type} (c : Cache ν) (key : JSKey) (value : ν) : Cache ν :=
  match c.items (keyStr key) with
  | some pointer => setValue (splayOnTop c pointer) pointer value
  | none =>
    if c.sz < c.capacity then
      storeKeyValue { c with sz := c.sz + 1 } c.sz key value
    else
      storeKeyValue (evictPhase c) c.tail key value

/-- `set(key, value)` together with the list of `"evicted"` events emitted
during the call (payload as passed to `this.events.emit`: the evicted slot's
`K` and `V` cells). -/
def setWithEvents {ν : Type} (c : Cache ν) (key : JSKey) (value : ν) :
    Cache ν × List (Option JSKey × Option ν) :=
  match c.items (keyStr key) with
  | some pointer => (setValue (splayOnTop c pointer) pointer value, [])
  | none =>
    if c.sz < c.capacity then
      (storeKeyValue { c with sz := c.sz + 1 } c.sz key value, [])
    else
      (storeKeyValue (evictPhase c) c.tail key value, [(c.K c.tail, c.V c.tail)])

/-- Return value of `setpop`: `null`, or `{evicted, key, value}`. -/
inductive SetpopResult (ν : Type) where
  | null : SetpopResult ν
  | pop (evicted : Bool) (key : JSKey) (value : Option ν) : SetpopResult ν
deriving DecidableEq

/-- `setpop(key, value)`: same mutation as `set`; returns the overwritten or
evicted entry.  The eviction branch guards its return on `if (oldKey)`, a
JavaScript truthiness test on the evicted key. -/
def setpop {ν : Type} (c : Cache ν) (key : JSKey) (value : ν) :
    Cache ν × SetpopResult ν :=
  match c.items (keyStr key) with
  | some pointer =>
    let c1 := splayOnTop c pointer
    let oldValue := c1.V pointer
    (setValue c1 pointer value, .pop false key oldValue)
  | none =>
    if c.sz < c.capacity then
      (storeKeyValue { c with sz := c.sz + 1 } c.sz key value, .null)
    else
      let oldKey := c.K c.tail
      let oldValue := c.V c.tail
      let c2 := storeKeyValue (evictPhase c) c.tail key value
      (c2,
        match oldKey with
        | some kk => if truthy kk then .pop true kk oldValue else .null
        | none => .null)

/-- `has(key)`: `key in this.items`. -/
def hasB {ν : Type} (c : Cache ν) (key : JSKey) : Bool :=
  (c.items (keyStr key)).isSome

/-- `peek(key)`: read the value without touching the linked list. -/
def peekV {ν : Type} (c : Cache ν) (key : JSKey) : Option ν :=
  match c.items (keyStr key) with
  | none => none
  | some pointer => c.V pointer

/-- The state after `get(key)`: splay on a hit, unchanged on a miss. -/
def getState {ν : Type} (c : Cache ν) (key : JSKey) : Cache ν :=
  match c.items (keyStr key) with
  | none => c
  | some pointer => splayOnTop c pointer

/-- The value returned by `get(key)` (read from `V` after the splay). -/
def getV {ν : Type} (c : Cache ν) (key : JSKey) : Option ν :=
  match c.items (keyStr key) with
  | none => none
  | some pointer => (splayOnTop c pointer).V pointer

/-- `clear()`: reset `_size`, `head`, `tail` and `items`; the arrays keep
their stale contents. -/
def clear {ν : Type} (c : Cache ν) : Cache ν :=
  { c with sz := 0, head := 0, tail := 0, items := fun _ => none }

/-- The slot sequence visited by the iterators: start at `pointer` and
follow `forward` for `n` entries. -/
def walkChain (f : Nat → Nat) (pointer : Nat) : Nat → List Nat
  | 0 => []
  | n + 1 => pointer :: walkChain f (f pointer) n

/-- `entries()` collected into a list: `_size` entries starting from `head`
along `forward`, each yielding `(K[pointer], V[pointer])`. -/
def entriesList {ν : Type} (c : Cache ν) : List (Option JSKey × Option ν) :=
  (walkChain c.forward c.head c.sz).map fun q => (c.K q, c.V q)

/-- `keys()` collected into a list. -/
def keysList {ν : Type} (c : Cache ν) : List (Option JSKey) :=
  (walkChain c.forward c.head c.sz).map fun q => c.K q

/-- `values()` collected into a list. -/
def valuesList {ν : Type} (c : Cache ν) : List (Option ν) :=
  (walkChain c.forward c.head c.sz).map fun q => c.V q

/-- The unsigned-integer widths `getPointerArray` can select. -/
inductive PointerWidth where
  | u8 | u16 | u32
deriving DecidableEq

/-- The two construction-time failures: the constructor's capacity check and
`getPointerArray`'s size limit. -/
inductive CacheError where
  | invalidCapacity
  | capacityUnsupported
deriving DecidableEq

/-- `getPointerArray(size)` from `src/get-pointer-array.ts`: the narrowest
typed-array class able to index `size - 1`. -/
def getPointerArray (size : Nat) : Except CacheError PointerWidth :=
  let maxIndex := size - 1
  if maxIndex ≤ 255 then .ok .u8
  else if maxIndex ≤ 65535 then .ok .u16
  else if maxIndex ≤ 4294967295 then .ok .u32
  else .error .capacityUnsupported

/-- A JavaScript value passed as the constructor's `capacity` argument.
Finite numbers are modelled as rationals (exact for every float); `nan`,
the infinities, booleans, `undefined` and a non-numeric object (which
coerces to `NaN`) are the other shapes exercised by the test suite. -/
inductive JSVal where
  | num (q : ℚ)
  | nan
  | posInf
  | negInf
  | boolean (b : Bool)
  | undef
  | obj

/-- JavaScript `isFinite(v)` (coercing): finite numbers and booleans pass;
`NaN`, the infinities, `undefined` and `{}` do not. -/
def jsIsFinite : JSVal → Bool
  | .num _ => true
  | .boolean _ => true
  | _ => false

/-- JavaScript `Math.floor(v) !== v` (strict inequality): false only for a
number equal to its floor or an infinity; true for every non-number (type
mismatch) and for `NaN`. -/
def jsFloorNe : JSVal → Bool
  | .num q => decide (((⌊q⌋ : ℤ) : ℚ) ≠ q)
  | .posInf => false
  | .negInf => false
  | _ => true

/-- JavaScript `v <= 0` (coercing comparison; false whenever the coercion
yields `NaN`). -/
def jsLeZero : JSVal → Bool
  | .num q => decide (q ≤ 0)
  | .boolean b => !b
  | .negInf => true
  | _ => false

/-- The constructor's capacity test:
`!isFinite(c) || Math.floor(c) !== c || c <= 0` throws. -/
def validCapacity (v : JSVal) : Bool :=
  jsIsFinite v && !jsFloorNe v && !jsLeZero v

/-- The numeric capacity as a natural number (only reached when the
capacity check has passed, in which case the value is a positive integer). -/
def jsCapacityNat : JSVal → Nat
  | .num q => (⌊q⌋).toNat
  | _ => 0

/-- The constructor `new LRUCache(capacity)`: the capacity check throws
`InvalidCapacityError`, then `getPointerArray(capacity)` may throw
`CapacityUnsupportedError`, then the fields are initialised. -/
def construct {ν : Type} (v : JSVal) : Except CacheError (Cache ν) :=
  if validCapacity v = false then .error .invalidCapacity
  else (getPointerArray (jsCapacityNat v)).map fun _ => emptyCache (jsCapacityNat v)

/-- An iterable of key/value pairs together with its optional `size` and
`length` properties, as consumed by `LRUCache.from`. -/
structure JSIterable (ν : Type) where
  pairs : List (JSKey × ν)
  sizeProp : Option Nat
  lengthProp : Option Nat

/-- JavaScript `a || b` on an optional numeric property: a missing or zero
(falsy) property falls through to the default. -/
def jsOrD (a : Option Nat) (b : Nat) : Nat :=
  match a with
  | some n => if n = 0 then b else n
  | none => b

/-- The default capacity of `from`: `iterable.size || iterable.length || 0`. -/
def defaultCap {ν : Type} (it : JSIterable ν) : Nat :=
  jsOrD it.sizeProp (jsOrD it.lengthProp 0)

/-- `LRUCache.from(iterable, capacity?)`: construct with the given or
defaulted capacity, then `set` every pair in iteration order. -/
def fromIter {ν : Type} (it : JSIterable ν) (capArg : Option Nat) :
    Except CacheError (Cache ν) :=
  let capacity := capArg.getD (defaultCap it)
  (construct (.num capacity)).map fun c =>
    it.pairs.foldl (fun c kv => set c kv.1 kv.2) c

/-- One public call on the cache (the operations a caller can interleave). -/
inductive Op (ν : Type) where
  | setK (k : JSKey) (v : ν)
  | setpopK (k : JSKey) (v : ν)
  | getK (k : JSKey)
  | peekK (k : JSKey)
  | hasK (k : JSKey)
  | clearC
  | iterate

/-- The state transition of one call.  `peek`, `has` and the iterators write
no field of the cache, so they leave the state unchanged. -/
def applyOp {ν : Type} (c : Cache ν) : Op ν → Cache ν
  | .setK k v => set c k v
  | .setpopK k v => (setpop c k v).1
  | .getK k => getState c k
  | .peekK _ => c
  | .hasK _ => c
  | .iterate => c
  | .clearC => clear c

/-- The state reached from a fresh cache of the given capacity by a sequence
of calls. -/
def reach {ν : Type} (capacity : Nat) (ops : List (Op ν)) : Cache ν :=
  ops.foldl applyOp (emptyCache capacity)

/-- The abstract effect of one `set` on the MRU-first entry list: the pair
goes to the front and any pair with the same property string is dropped. -/
def absSet {ν : Type} (l : List (JSKey × ν)) (k : JSKey) (v : ν) : List (JSKey × ν) :=
  (k, v) :: l.filter fun e => !(keyStr e.1 == keyStr k)

/-- The MRU-first entry list obtained by replaying a pair sequence. -/
def absFold {ν : Type} (ps : List (JSKey × ν)) : List (JSKey × ν) :=
  ps.foldl (fun a kv => absSet a kv.1 kv.2) []

/-- The structural invariant tying a cache state to the slot list `L` of its
recency chain, MRU first: sizes agree, the slots are distinct and drawn from
`0..size-1`, `head`/`tail` frame the list, consecutive slots are doubly
linked, and `items` is exactly the property-string→slot index of the chain.
The two `= 0` fields record that an empty cache has `head = tail = 0`, and
`back_single` that a one-entry cache has its slot's `backward` cell pointing
at itself (established by `storeKeyValue` writing `backward[head]` when the
inserted slot is itself the head). -/
structure CacheInv {ν : Type} (c : Cache ν) (L : List Nat) : Prop where
  cap_pos : 0 < c.capacity
  size_eq : c.sz = L.length
  size_le : c.sz ≤ c.capacity
  nodup : L.Nodup
  mem_lt : ∀ p ∈ L, p < c.sz
  head_eq : L ≠ [] → L.head? = some c.head
  tail_eq : L ≠ [] → L.getLast? = some c.tail
  head_zero : L = [] → c.head = 0
  tail_zero : L = [] → c.tail = 0
  back_single : ∀ p, L = [p] → c.backward p = p
  links : List.Chain' (fun a b => c.forward a = b ∧ c.backward b = a) L
  items_iff : ∀ s q, c.items s = some q ↔ (q ∈ L ∧ keyProp (c.K q) = s)

end LRU

namespace LRU

/-! ### Chain and traversal lemmas -/

/-- Adjacent pairs of a list have their first component in `dropLast` and
their second in `tail`; a relation that agrees there transports `Chain'`. -/
theorem chain'_transport {R S : Nat → Nat → Prop} :
    ∀ {l : List Nat}, List.Chain' R l →
      (∀ a b, R a b → a ∈ l.dropLast → b ∈ l.tail → S a b) → List.Chain' S l
  | [], _, _ => List.chain'_nil
  | [a], _, _ => List.chain'_singleton a
  | a :: b :: t, h, hab => by
    rw [List.chain'_cons] at h ⊢
    constructor
    · exact hab a b h.1 (by simp) (by simp)
    · refine chain'_transport h.2 ?_
      intro x y hR hx hy
      exact hab x y hR (by simpa using Or.inr hx) (by simpa using Or.inr hy)

/-- A list whose consecutive elements are `forward`-linked is recovered by
the iterator traversal of its length starting at its head. -/
theorem walkChain_eq {f g : Nat → Nat} :
    ∀ {l : List Nat} {h : Nat},
      List.Chain' (fun a b => f a = b ∧ g b = a) l → l.head? = some h →
      walkChain f h l.length = l
  | [], _, _, hh => by simp at hh
  | [a], h, _, hh => by
    obtain rfl : h = a := by simpa using hh.symm
    simp [walkChain]
  | a :: b :: t, h, hc, hh => by
    obtain rfl : h = a := by simpa using hh.symm
    rw [List.chain'_cons] at hc
    have ih := walkChain_eq (l := b :: t) hc.2 rfl
    simp only [List.length_cons, walkChain] at ih ⊢
    rw [hc.1.1, ih]

end LRU

namespace LRU

/-! ### splayOnTop characterisations -/

theorem splayOnTop_head {ν : Type} {c : Cache ν} {p : Nat} (h : c.head = p) :
    splayOnTop c p = c := by
  unfold splayOnTop
  rw [if_pos h]

/-- The splay of a non-head, non-tail slot, written out. -/
theorem splayOnTop_mid {ν : Type} {c : Cache ν} {p : Nat}
    (hh : c.head ≠ p) (ht : c.tail ≠ p) :
    splayOnTop c p =
      { c with
        forward := updF (updF c.forward (c.backward p) (c.forward p)) p c.head
        backward := updF (updF c.backward (c.forward p) (c.backward p)) c.head p
        head := p } := by
  unfold splayOnTop
  rw [if_neg hh]
  simp only [if_neg ht]

/-- The splay of the (non-head) tail slot, written out. -/
theorem splayOnTop_tail {ν : Type} {c : Cache ν} {p : Nat}
    (hh : c.head ≠ p) (ht : c.tail = p) :
    splayOnTop c p =
      { c with
        forward := updF (updF c.forward (c.backward p) (c.forward p)) p c.head
        backward := updF c.backward c.head p
        tail := c.backward p
        head := p } := by
  unfold splayOnTop
  rw [if_neg hh]
  simp only [if_pos ht]

theorem splayOnTop_K {ν : Type} (c : Cache ν) (p : Nat) : (splayOnTop c p).K = c.K := by
  unfold splayOnTop
  split
  · rfl
  · simp only []
    split <;> rfl

theorem splayOnTop_V {ν : Type} (c : Cache ν) (p : Nat) : (splayOnTop c p).V = c.V := by
  unfold splayOnTop
  split
  · rfl
  · simp only []
    split <;> rfl

theorem splayOnTop_items {ν : Type} (c : Cache ν) (p : Nat) :
    (splayOnTop c p).items = c.items := by
  unfold splayOnTop
  split
  · rfl
  · simp only []
    split <;> rfl

theorem splayOnTop_sz {ν : Type} (c : Cache ν) (p : Nat) : (splayOnTop c p).sz = c.sz := by
  unfold splayOnTop
  split
  · rfl
  · simp only []
    split <;> rfl

theorem splayOnTop_capacity {ν : Type} (c : Cache ν) (p : Nat) :
    (splayOnTop c p).capacity = c.capacity := by
  unfold splayOnTop
  split
  · rfl
  · simp only []
    split <;> rfl

end LRU

namespace LRU

/-! ### Small helpers -/

theorem updF_same (f : Nat → Nat) (i v : Nat) : updF f i v i = v := by simp [updF]

theorem updF_ne (f : Nat → Nat) (i v : Nat) {j : Nat} (h : j ≠ i) : updF f i v j = f j := by
  simp [updF, h]

theorem updO_same {α : Type} (f : Nat → Option α) (i : Nat) (x : Option α) :
    updO f i x i = x := by simp [updO]

theorem updO_ne {α : Type} (f : Nat → Option α) (i : Nat) (x : Option α) {j : Nat}
    (h : j ≠ i) : updO f i x j = f j := by simp [updO, h]

theorem updS_same (m : String → Option Nat) (s : String) (x : Option Nat) :
    updS m s x s = x := by simp [updS]

theorem updS_ne (m : String → Option Nat) (s : String) (x : Option Nat) {t : String}
    (h : t ≠ s) : updS m s x t = m t := by simp [updS, h]

theorem mem_rotate {p q : Nat} {A B : List Nat} :
    q ∈ p :: (A ++ B) ↔ q ∈ A ++ p :: B := by
  simp only [List.mem_cons, List.mem_append]
  tauto

theorem exists_getLast? {l : List Nat} (h : l ≠ []) : ∃ x, l.getLast? = some x ∧ x ∈ l :=
  ⟨l.getLast h, List.getLast?_eq_getLast_of_ne_nil h, List.getLast_mem h⟩

theorem getLast?_not_mem_dropLast {l : List Nat} {x : Nat}
    (hn : l.Nodup) (hx : l.getLast? = some x) : x ∉ l.dropLast := by
  have hl : l.dropLast ++ [x] = l := List.dropLast_append_getLast? x hx
  rw [← hl] at hn
  have := (List.nodup_append.mp hn).2.2
  intro hmem
  exact this hmem (by simp)

end LRU

namespace LRU

/-- Splaying a chain slot rotates it to the front of the slot list and
preserves the structural invariant. -/
theorem CacheInv.splay {ν : Type} {c : Cache ν} {A B : List Nat} {p : Nat}
    (h : CacheInv c (A ++ p :: B)) :
    CacheInv (splayOnTop c p) (p :: (A ++ B)) := by
  cases A with
  | nil =>
    have hh : c.head = p := by
      have := h.head_eq (by simp)
      simp only [List.nil_append, List.head?_cons, Option.some.injEq] at this
      exact this.symm
    rw [splayOnTop_head hh]
    exact h
  | cons a₀ A' =>
    -- basic nodup facts about L = (a₀ :: A') ++ p :: B
    have hnd := h.nodup
    obtain ⟨ndA, ndPB, disj⟩ := List.nodup_append.mp hnd
    have hpB : p ∉ B := (List.nodup_cons.mp ndPB).1
    have ndB : B.Nodup := (List.nodup_cons.mp ndPB).2
    have hpA : p ∉ a₀ :: A' := fun hm => disj hm (by simp)
    have hhead : c.head = a₀ := by
      have := h.head_eq (by simp)
      simp only [List.cons_append, List.head?_cons, Option.some.injEq] at this
      exact this.symm
    have hh : c.head ≠ p := by
      rw [hhead]; intro he; exact hpA (he ▸ List.mem_cons_self a₀ A')
    -- the last element of A and the boundary link aL → p
    obtain ⟨aL, haL, haLA⟩ := exists_getLast? (l := a₀ :: A') (by simp)
    obtain ⟨chA, chPB, bdA⟩ := List.chain'_append.mp h.links
    have hlink : c.forward aL = p ∧ c.backward p = aL := by
      have := bdA aL (by rw [haL]; exact rfl) p (by simp)
      exact this
    have haLp : aL ≠ p := fun he => hpA (he ▸ haLA)
    have haLdrop : aL ∉ (a₀ :: A').dropLast := getLast?_not_mem_dropLast ndA haL
    have ha₀tail : a₀ ∉ (a₀ :: A').tail := by
      simpa using (List.nodup_cons.mp ndA).1
    have ha₀p : a₀ ≠ p := fun he => hpA (he ▸ List.mem_cons_self a₀ A')
    cases B with
    | nil =>
      -- p is the tail; the splay advances the tail to aL
      have ht : c.tail = p := by
        have := h.tail_eq (by simp)
        rw [List.getLast?_append_of_ne_nil _ (by simp)] at this
        simp only [List.getLast?_singleton, Option.some.injEq] at this
        exact this.symm
      rw [splayOnTop_tail hh ht]
      rw [hlink.2, hhead]
      constructor
      case cap_pos => exact h.cap_pos
      case size_eq => have := h.size_eq; simpa using this
      case size_le => exact h.size_le
      case nodup => simpa using List.nodup_middle.mp hnd
      case mem_lt =>
        intro q hq
        exact h.mem_lt q (mem_rotate.mp (by simpa using hq))
      case head_eq => intro _; rfl
      case tail_eq =>
        intro _
        rw [show p :: ((a₀ :: A') ++ []) = [p] ++ (a₀ :: A') by simp,
          List.getLast?_append_of_ne_nil _ (by simp), haL]
      case head_zero => intro he; simp at he
      case tail_zero => intro he; simp at he
      case back_single => intro q he; simp at he
      case links =>
        simp only [List.append_nil]
        rw [List.chain'_cons]
        refine ⟨⟨?_, ?_⟩, ?_⟩
        · exact updF_same _ _ _
        · rw [updF_same]
        · -- interior links of A survive the update
          refine chain'_transport chA ?_
          intro x y hR hx hy
          have hxp : x ≠ p := fun he => hpA (he ▸ List.mem_of_mem_dropLast hx)
          have hxaL : x ≠ aL := fun he => haLdrop (he ▸ hx)
          have hya₀ : y ≠ a₀ := fun he => ha₀tail (he ▸ hy)
          exact ⟨by rw [updF_ne _ _ _ hxp, updF_ne _ _ _ hxaL]; exact hR.1,
            by rw [updF_ne _ _ _ hya₀]; exact hR.2⟩
      case items_iff =>
        intro s q
        rw [h.items_iff s q]
        constructor
        · rintro ⟨hq, hs⟩
          exact ⟨by simpa using mem_rotate.mpr hq, hs⟩
        · rintro ⟨hq, hs⟩
          exact ⟨mem_rotate.mp (by simpa using hq), hs⟩
    | cons b₀ B' =>
      -- p is interior: B is nonempty, the tail is unchanged
      have hpb₀ : c.forward p = b₀ ∧ c.backward b₀ = p := (List.chain'_cons.mp chPB).1
      have chB : List.Chain' (fun x y => c.forward x = y ∧ c.backward y = x) (b₀ :: B') :=
        (List.chain'_cons.mp chPB).2
      obtain ⟨tl, htl, htlB⟩ := exists_getLast? (l := b₀ :: B') (by simp)
      have ht : c.tail = tl := by
        have h2 := h.tail_eq (by simp)
        rw [List.getLast?_append_of_ne_nil (a₀ :: A') (by simp)] at h2
        rw [show (p :: b₀ :: B') = [p] ++ b₀ :: B' from rfl] at h2
        rw [List.getLast?_append_of_ne_nil _ (by simp), htl] at h2
        simpa using h2.symm
      have htp : c.tail ≠ p := by rw [ht]; intro he; exact hpB (he ▸ htlB)
      rw [splayOnTop_mid hh htp]
      rw [hlink.2, hpb₀.1, hhead]
      have hb₀A : b₀ ∉ a₀ :: A' := fun hm => disj hm (by simp)
      have hb₀a₀ : b₀ ≠ a₀ := fun he => hb₀A (he ▸ List.mem_cons_self a₀ A')
      have hb₀p : b₀ ≠ p := fun he => hpB (he ▸ List.mem_cons_self b₀ B')
      have hb₀tail : b₀ ∉ (b₀ :: B').tail := by
        simpa using (List.nodup_cons.mp ndB).1
      constructor
      case cap_pos => exact h.cap_pos
      case size_eq => have := h.size_eq; simp at this ⊢; omega
      case size_le => exact h.size_le
      case nodup => simpa using List.nodup_middle.mp hnd
      case mem_lt =>
        intro q hq
        exact h.mem_lt q (mem_rotate.mp (by simpa using hq))
      case head_eq => intro _; rfl
      case tail_eq =>
        intro _
        rw [ht, show p :: ((a₀ :: A') ++ b₀ :: B') = (p :: (a₀ :: A')) ++ b₀ :: B' by simp,
          List.getLast?_append_of_ne_nil _ (by simp), htl]
      case head_zero => intro he; simp at he
      case tail_zero => intro he; simp at he
      case back_single => intro q he; simp at he
      case links =>
        dsimp only
        rw [List.chain'_cons']
        refine ⟨?_, ?_⟩
        · intro y hy
          have hya : a₀ = y := by
            simpa using hy
          subst hya
          exact ⟨updF_same _ _ _, updF_same _ _ _⟩
        · rw [List.chain'_append]
          refine ⟨?_, ?_, ?_⟩
          · refine chain'_transport chA ?_
            intro x y hR hx hy
            have hxp : x ≠ p := fun he => hpA (he ▸ List.mem_of_mem_dropLast hx)
            have hxaL : x ≠ aL := fun he => haLdrop (he ▸ hx)
            have hya₀ : y ≠ a₀ := fun he => ha₀tail (he ▸ hy)
            have hyb₀ : y ≠ b₀ := fun he => hb₀A (he ▸ List.mem_of_mem_tail hy)
            exact ⟨by rw [updF_ne _ _ _ hxp, updF_ne _ _ _ hxaL]; exact hR.1,
              by rw [updF_ne _ _ _ hya₀, updF_ne _ _ _ hyb₀]; exact hR.2⟩
          · refine chain'_transport chB ?_
            intro x y hR hx hy
            have hxB : x ∈ b₀ :: B' := List.mem_of_mem_dropLast hx
            have hyB : y ∈ b₀ :: B' := List.mem_of_mem_tail hy
            have hxp : x ≠ p := fun he => hpB (he ▸ hxB)
            have hxaL : x ≠ aL := fun he =>
              disj haLA (List.mem_cons_of_mem _ (he ▸ hxB))
            have hya₀ : y ≠ a₀ :=
              fun he => disj (List.mem_cons_self a₀ A') (List.mem_cons_of_mem _ (he ▸ hyB))
            have hyb₀ : y ≠ b₀ := fun he => hb₀tail (he ▸ hy)
            exact ⟨by rw [updF_ne _ _ _ hxp, updF_ne _ _ _ hxaL]; exact hR.1,
              by rw [updF_ne _ _ _ hya₀, updF_ne _ _ _ hyb₀]; exact hR.2⟩
          · intro x hx y hy
            have hxaL : aL = x := by rw [haL] at hx; simpa using hx
            have hyb₀ : b₀ = y := by simpa using hy
            subst hxaL
            subst hyb₀
            refine ⟨?_, ?_⟩
            · rw [updF_ne _ _ _ haLp, updF_same]
            · rw [updF_ne _ _ _ hb₀a₀, updF_same]
      case items_iff =>
        intro s q
        rw [h.items_iff s q]
        constructor
        · rintro ⟨hq, hs⟩
          exact ⟨by simpa using mem_rotate.mpr hq, hs⟩
        · rintro ⟨hq, hs⟩
          exact ⟨mem_rotate.mp (by simpa using hq), hs⟩

end LRU

namespace LRU

/-- Inserting a new key into a non-full cache claims slot `_size` and puts
it in front of the chain, preserving the invariant. -/
theorem CacheInv.store_fresh {ν : Type} {c : Cache ν} {L : List Nat}
    (h : CacheInv c L) (k : JSKey) (v : ν)
    (hnone : c.items (keyStr k) = none) (hlt : c.sz < c.capacity) :
    CacheInv (storeKeyValue { c with sz := c.sz + 1 } c.sz k v) (c.sz :: L) := by
  have hpL : c.sz ∉ L := fun hm => absurd (h.mem_lt _ hm) (lt_irrefl _)
  constructor
  case cap_pos => exact h.cap_pos
  case size_eq => simp [storeKeyValue, h.size_eq]
  case size_le => simpa [storeKeyValue] using hlt
  case nodup => exact List.nodup_cons.mpr ⟨hpL, h.nodup⟩
  case mem_lt =>
    intro q hq
    rcases List.mem_cons.mp hq with rfl | hq
    · simp [storeKeyValue]
    · have := h.mem_lt q hq
      simp only [storeKeyValue]
      omega
  case head_eq => intro _; rfl
  case tail_eq =>
    intro _
    cases L with
    | nil =>
      have hsz : c.sz = 0 := by simpa using h.size_eq
      simp only [List.getLast?_singleton, storeKeyValue, Option.some.injEq]
      rw [h.tail_zero rfl, hsz]
    | cons x t =>
      rw [List.getLast?_cons_cons]
      exact h.tail_eq (by simp)
  case head_zero => intro he; simp at he
  case tail_zero => intro he; simp at he
  case back_single =>
    intro q he
    have h1 : c.sz = q := (List.cons_eq_cons.mp he).1
    have hL : L = [] := (List.cons_eq_cons.mp he).2
    have hsz : c.sz = 0 := by
      have := h.size_eq
      rw [hL] at this
      simpa using this
    have hhd : c.head = 0 := h.head_zero hL
    simp only [storeKeyValue]
    rw [← h1, hsz, hhd]
    exact updF_same _ _ _
  case links =>
    rw [List.chain'_cons']
    constructor
    · intro y hy
      cases L with
      | nil => simp at hy
      | cons h₀ t =>
        have hyh : h₀ = y := by simpa using hy
        subst hyh
        have hhd : c.head = h₀ := by
          have := h.head_eq (by simp)
          simpa using this.symm
        constructor
        · simp only [storeKeyValue]
          rw [updF_same, hhd]
        · simp only [storeKeyValue]
          rw [hhd, updF_same]
    · refine chain'_transport h.links ?_
      intro x y hR hx hy
      have hxL : x ∈ L := List.mem_of_mem_dropLast hx
      have hxp : x ≠ c.sz := fun he => hpL (he ▸ hxL)
      have hyh : y ≠ c.head := by
        intro he
        cases L with
        | nil => simp at hy
        | cons h₀ t =>
          have hhd : c.head = h₀ := by
            have := h.head_eq (by simp)
            simpa using this.symm
          have : h₀ ∉ t := by simpa using (List.nodup_cons.mp h.nodup).1
          exact this (by rw [← hhd, ← he]; simpa using hy)
      constructor
      · simp only [storeKeyValue]
        rw [updF_ne _ _ _ hxp]
        exact hR.1
      · simp only [storeKeyValue]
        rw [updF_ne _ _ _ hyh]
        exact hR.2
  case items_iff =>
    intro s q
    simp only [storeKeyValue]
    by_cases hs : s = keyStr k
    · subst hs
      rw [updS_same]
      constructor
      · rintro ⟨rfl⟩
        exact ⟨List.mem_cons_self _ _, by rw [updO_same]; rfl⟩
      · rintro ⟨hq, hkey⟩
        rcases List.mem_cons.mp hq with rfl | hq
        · rfl
        · have hqp : q ≠ c.sz := fun he => hpL (he ▸ hq)
          rw [updO_ne _ _ _ hqp] at hkey
          have := (h.items_iff (keyStr k) q).mpr ⟨hq, hkey⟩
          rw [hnone] at this
          exact absurd this (by simp)
    · rw [updS_ne _ _ _ hs]
      rw [h.items_iff s q]
      constructor
      · rintro ⟨hq, hkey⟩
        have hqp : q ≠ c.sz := fun he => hpL (he ▸ hq)
        exact ⟨List.mem_cons_of_mem _ hq, by rw [updO_ne _ _ _ hqp]; exact hkey⟩
      · rintro ⟨hq, hkey⟩
        rcases List.mem_cons.mp hq with rfl | hq
        · rw [updO_same] at hkey
          exact absurd (by simpa [keyProp] using hkey.symm) hs
        · have hqp : q ≠ c.sz := fun he => hpL (he ▸ hq)
          rw [updO_ne _ _ _ hqp] at hkey
          exact ⟨hq, hkey⟩

end LRU

namespace LRU

/-- Evicting the tail of a full cache and storing the new key in its slot
rotates the freed slot to the front of the chain, preserving the
invariant. -/
theorem CacheInv.store_evict {ν : Type} {c : Cache ν} {M : List Nat} {t : Nat}
    (h : CacheInv c (M ++ [t])) (k : JSKey) (v : ν)
    (hnone : c.items (keyStr k) = none) :
    CacheInv (storeKeyValue (evictPhase c) c.tail k v) (t :: M) := by
  have htail : c.tail = t := by
    have h2 := h.tail_eq (by simp)
    rw [List.getLast?_append_of_ne_nil _ (by simp)] at h2
    simpa using h2.symm
  obtain ⟨ndM, _, disj⟩ := List.nodup_append.mp h.nodup
  have htM : t ∉ M := fun hm => disj hm (by simp)
  have hOld : c.items (keyProp (c.K t)) = some t :=
    (h.items_iff (keyProp (c.K t)) t).mpr ⟨by simp, rfl⟩
  have hsk : keyStr k ≠ keyProp (c.K t) := by
    intro he
    rw [← he, hnone] at hOld
    exact absurd hOld (by simp)
  rw [htail]
  constructor
  case cap_pos => exact h.cap_pos
  case size_eq =>
    have := h.size_eq
    simp only [storeKeyValue, evictPhase] at this ⊢
    simp at this
    simpa using this
  case size_le => exact h.size_le
  case nodup => exact List.nodup_cons.mpr ⟨htM, ndM⟩
  case mem_lt =>
    intro q hq
    rcases List.mem_cons.mp hq with rfl | hq
    · exact h.mem_lt q (by simp)
    · exact h.mem_lt q (List.mem_append_left _ hq)
  case head_eq => intro _; rfl
  case tail_eq =>
    intro _
    cases M with
    | nil =>
      have hb : c.backward t = t := h.back_single t rfl
      simp only [List.getLast?_singleton, storeKeyValue, evictPhase, Option.some.injEq]
      rw [htail, hb]
    | cons m₀ M' =>
      obtain ⟨mL, hmL, _⟩ := exists_getLast? (l := m₀ :: M') (by simp)
      obtain ⟨_, _, bd⟩ := List.chain'_append.mp h.links
      have hlink := bd mL (by rw [hmL]; exact rfl) t (by simp)
      rw [List.getLast?_cons_cons, hmL]
      simp only [storeKeyValue, evictPhase]
      rw [htail, hlink.2]
  case head_zero => intro he; simp at he
  case tail_zero => intro he; simp at he
  case back_single =>
    intro q he
    have h1 : t = q := (List.cons_eq_cons.mp he).1
    have hM : M = [] := (List.cons_eq_cons.mp he).2
    have hhd : c.head = t := by
      have := h.head_eq (by simp)
      rw [hM] at this
      simpa using this.symm
    simp only [storeKeyValue, evictPhase]
    rw [← h1, hhd]
    exact updF_same _ _ _
  case links =>
    rw [List.chain'_cons']
    constructor
    · intro y hy
      cases M with
      | nil => simp at hy
      | cons m₀ M' =>
        have hym : m₀ = y := by simpa using hy
        subst hym
        have hhd : c.head = m₀ := by
          have := h.head_eq (by simp)
          simpa using this.symm
        constructor
        · simp only [storeKeyValue, evictPhase]
          rw [updF_same, hhd]
        · simp only [storeKeyValue, evictPhase]
          rw [hhd, updF_same]
    · have chM : List.Chain' (fun a b => c.forward a = b ∧ c.backward b = a) M :=
        (List.chain'_append.mp h.links).1
      refine chain'_transport chM ?_
      intro x y hR hx hy
      have hxM : x ∈ M := List.mem_of_mem_dropLast hx
      have hxt : x ≠ t := fun he => htM (he ▸ hxM)
      have hyh : y ≠ c.head := by
        intro he
        cases M with
        | nil => simp at hy
        | cons m₀ M' =>
          have hhd : c.head = m₀ := by
            have := h.head_eq (by simp)
            simpa using this.symm
          have : m₀ ∉ M' := by simpa using (List.nodup_cons.mp ndM).1
          exact this (by rw [← hhd, ← he]; simpa using hy)
      constructor
      · simp only [storeKeyValue, evictPhase]
        rw [updF_ne _ _ _ hxt]
        exact hR.1
      · simp only [storeKeyValue, evictPhase]
        rw [updF_ne _ _ _ hyh]
        exact hR.2
  case items_iff =>
    intro s q
    simp only [storeKeyValue, evictPhase]
    rw [htail]
    by_cases hs : s = keyStr k
    · subst hs
      rw [updS_same]
      constructor
      · rintro ⟨rfl⟩
        exact ⟨List.mem_cons_self _ _, by rw [updO_same]; rfl⟩
      · rintro ⟨hq, hkey⟩
        rcases List.mem_cons.mp hq with rfl | hq
        · rfl
        · have hqt : q ≠ t := fun he => htM (he ▸ hq)
          rw [updO_ne _ _ _ hqt] at hkey
          have := (h.items_iff (keyStr k) q).mpr ⟨List.mem_append_left _ hq, hkey⟩
          rw [hnone] at this
          exact absurd this (by simp)
    · rw [updS_ne _ _ _ hs]
      by_cases hs2 : s = keyProp (c.K t)
      · subst hs2
        rw [updS_same]
        constructor
        · intro hfalse
          exact absurd hfalse (by simp)
        · rintro ⟨hq, hkey⟩
          rcases List.mem_cons.mp hq with rfl | hq
          · rw [updO_same] at hkey
            exact absurd (by simpa [keyProp] using hkey.symm) hs
          · have hqt : q ≠ t := fun he => htM (he ▸ hq)
            rw [updO_ne _ _ _ hqt] at hkey
            have := (h.items_iff _ q).mpr ⟨List.mem_append_left _ hq, hkey⟩
            rw [hOld] at this
            exact absurd (Option.some.inj this).symm hqt
      · rw [updS_ne _ _ _ hs2]
        rw [h.items_iff s q]
        constructor
        · rintro ⟨hq, hkey⟩
          rcases (List.mem_append.mp hq) with hq | hq
          · have hqt : q ≠ t := fun he => htM (he ▸ hq)
            exact ⟨List.mem_cons_of_mem _ hq, by rw [updO_ne _ _ _ hqt]; exact hkey⟩
          · obtain rfl : q = t := by simpa using hq
            exact absurd hkey.symm hs2
        · rintro ⟨hq, hkey⟩
          rcases List.mem_cons.mp hq with rfl | hq
          · rw [updO_same] at hkey
            exact absurd (by simpa [keyProp] using hkey.symm) hs
          · have hqt : q ≠ t := fun he => htM (he ▸ hq)
            rw [updO_ne _ _ _ hqt] at hkey
            exact ⟨List.mem_append_left _ hq, hkey⟩

end LRU

namespace LRU

theorem CacheInv.empty {ν : Type} {cap : Nat} (hcap : 0 < cap) :
    CacheInv (emptyCache cap : Cache ν) [] := by
  constructor <;> intros <;> simp_all [emptyCache]

theorem CacheInv.clearInv {ν : Type} {c : Cache ν} {L : List Nat}
    (h : CacheInv c L) : CacheInv (clear c) [] := by
  have := h.cap_pos
  constructor <;> intros <;> simp_all [clear]

theorem CacheInv.setValueInv {ν : Type} {c : Cache ν} {L : List Nat} {p : Nat} {v : ν}
    (h : CacheInv c L) : CacheInv (setValue c p v) L :=
  ⟨h.cap_pos, h.size_eq, h.size_le, h.nodup, h.mem_lt, h.head_eq, h.tail_eq,
    h.head_zero, h.tail_zero, h.back_single, h.links, h.items_iff⟩

/-- The entry list produced by the iterators is the chain slot list mapped
through the `K`/`V` arrays. -/
theorem entries_eq {ν : Type} {c : Cache ν} {L : List Nat} (h : CacheInv c L) :
    entriesList c = L.map fun q => (c.K q, c.V q) := by
  unfold entriesList
  cases hL : L with
  | nil =>
    have : c.sz = 0 := by rw [h.size_eq, hL]; rfl
    rw [this]
    rfl
  | cons x xs =>
    rw [h.size_eq, walkChain_eq h.links (h.head_eq (by simp [hL])), hL]

end LRU

namespace LRU

/-- `set` on an existing key: value overwritten, slot splayed to the front,
all other entries keeping their relative order. -/
theorem set_present {ν : Type} {c : Cache ν} {L : List Nat} {p : Nat} {k : JSKey} (v : ν)
    (h : CacheInv c L) (hp : c.items (keyStr k) = some p) :
    ∃ L', CacheInv (set c k v) L' ∧
      entriesList (set c k v) =
        (c.K p, some v) :: (entriesList c).filter (fun e => !(keyProp e.1 == keyStr k)) ∧
      (set c k v).sz = c.sz ∧ (set c k v).capacity = c.capacity ∧
      keyProp (c.K p) = keyStr k := by
  obtain ⟨hpL, hkp⟩ := (h.items_iff _ _).mp hp
  obtain ⟨A, B, hL⟩ := List.append_of_mem hpL
  subst hL
  obtain ⟨ndA, ndPB, disj⟩ := List.nodup_append.mp h.nodup
  have hpA : p ∉ A := fun hm => disj hm (by simp)
  have hpB : p ∉ B := (List.nodup_cons.mp ndPB).1
  have hset : set c k v = setValue (splayOnTop c p) p v := by
    unfold set
    rw [hp]
  have inv' : CacheInv (setValue (splayOnTop c p) p v) (p :: (A ++ B)) :=
    (h.splay).setValueInv
  have hK : (setValue (splayOnTop c p) p v).K = c.K := splayOnTop_K c p
  have hV : (setValue (splayOnTop c p) p v).V = updO c.V p (some v) := by
    show updO (splayOnTop c p).V p (some v) = _
    rw [splayOnTop_V]
  have hkq : ∀ q, q ∈ A ++ B → keyProp (c.K q) ≠ keyStr k := by
    intro q hq he
    have := (h.items_iff (keyStr k) q).mpr ⟨mem_rotate.mp (List.mem_cons_of_mem _ hq), he⟩
    rw [hp] at this
    have hqp : q = p := (Option.some.inj this).symm
    subst hqp
    rcases List.mem_append.mp hq with hc | hc
    · exact hpA hc
    · exact hpB hc
  refine ⟨p :: (A ++ B), ?_, ?_, ?_, ?_, hkp⟩
  · rw [hset]; exact inv'
  · rw [hset, entries_eq inv', entries_eq h, hK, hV]
    rw [List.map_cons, updO_same]
    congr 1
    rw [List.map_append, List.map_append, List.map_cons, List.filter_append, List.filter_cons]
    have hpred : (!(keyProp (c.K p) == keyStr k)) = false := by
      simp [hkp]
    rw [hpred]
    simp only [Bool.false_eq_true, if_false]
    have hA : (A.map fun q => (c.K q, c.V q)).filter
        (fun e => !(keyProp e.1 == keyStr k)) = A.map fun q => (c.K q, c.V q) := by
      refine List.filter_eq_self.mpr ?_
      intro e he
      obtain ⟨q, hq, rfl⟩ := List.mem_map.mp he
      simpa using hkq q (List.mem_append_left _ hq)
    have hB : (B.map fun q => (c.K q, c.V q)).filter
        (fun e => !(keyProp e.1 == keyStr k)) = B.map fun q => (c.K q, c.V q) := by
      refine List.filter_eq_self.mpr ?_
      intro e he
      obtain ⟨q, hq, rfl⟩ := List.mem_map.mp he
      simpa using hkq q (List.mem_append_right _ hq)
    rw [hA, hB]
    have hAeq : List.map (fun q => (c.K q, updO c.V p (some v) q)) A
        = List.map (fun q => (c.K q, c.V q)) A := by
      refine List.map_congr_left ?_
      intro q hq
      have hqp : q ≠ p := fun he => hpA (he ▸ hq)
      rw [updO_ne _ _ _ hqp]
    have hBeq : List.map (fun q => (c.K q, updO c.V p (some v) q)) B
        = List.map (fun q => (c.K q, c.V q)) B := by
      refine List.map_congr_left ?_
      intro q hq
      have hqp : q ≠ p := fun he => hpB (he ▸ hq)
      rw [updO_ne _ _ _ hqp]
    rw [hAeq, hBeq]
  · rw [hset]
    show (splayOnTop c p).sz = c.sz
    exact splayOnTop_sz c p
  · rw [hset]
    show (splayOnTop c p).capacity = c.capacity
    exact splayOnTop_capacity c p

end LRU

namespace LRU

/-- `set` of a new key into a non-full cache: the pair simply goes to the
front of the entry list. -/
theorem set_fresh {ν : Type} {c : Cache ν} {L : List Nat} {k : JSKey} (v : ν)
    (h : CacheInv c L) (hnone : c.items (keyStr k) = none) (hlt : c.sz < c.capacity) :
    CacheInv (set c k v) (c.sz :: L) ∧
      entriesList (set c k v) = (some k, some v) :: entriesList c ∧
      (set c k v).sz = c.sz + 1 ∧ (set c k v).capacity = c.capacity := by
  have hset : set c k v = storeKeyValue { c with sz := c.sz + 1 } c.sz k v := by
    unfold set
    rw [hnone, if_pos hlt]
  have inv' := h.store_fresh k v hnone hlt
  rw [hset]
  refine ⟨inv', ?_, rfl, rfl⟩
  rw [entries_eq inv', entries_eq h, List.map_cons]
  simp only [storeKeyValue]
  rw [updO_same, updO_same]
  congr 1
  refine List.map_congr_left ?_
  intro q hq
  have hqp : q ≠ c.sz := fun he => absurd (h.mem_lt q (he ▸ hq)) (by simp [he])
  rw [updO_ne _ _ _ hqp, updO_ne _ _ _ hqp]

/-- `set` of a new key into a full cache: the tail entry is dropped and the
pair goes to the front of the entry list. -/
theorem set_evict {ν : Type} {c : Cache ν} {L : List Nat} {k : JSKey} (v : ν)
    (h : CacheInv c L) (hnone : c.items (keyStr k) = none) (hfull : ¬ c.sz < c.capacity) :
    CacheInv (set c k v) (c.tail :: L.dropLast) ∧
      entriesList (set c k v) = (some k, some v) :: (entriesList c).dropLast ∧
      (set c k v).sz = c.sz ∧ (set c k v).capacity = c.capacity ∧
      (entriesList c).getLast? = some (c.K c.tail, c.V c.tail) := by
  have hLne : L ≠ [] := by
    intro hL
    have := h.size_eq
    rw [hL] at this
    simp at this
    rw [this] at hfull
    exact hfull h.cap_pos
  have hdecomp : L.dropLast ++ [L.getLast hLne] = L := List.dropLast_append_getLast hLne
  have htail : c.tail = L.getLast hLne := by
    have h2 := h.tail_eq hLne
    rw [List.getLast?_eq_getLast_of_ne_nil hLne] at h2
    simpa using h2.symm
  have hset : set c k v = storeKeyValue (evictPhase c) c.tail k v := by
    unfold set
    rw [hnone, if_neg hfull]
  have hinv2 : CacheInv c (L.dropLast ++ [L.getLast hLne]) := by
    rw [hdecomp]
    exact h
  have inv' := hinv2.store_evict k v hnone
  rw [← htail] at inv'
  have hgetK : (storeKeyValue (evictPhase c) c.tail k v).K = updO c.K c.tail (some k) := rfl
  have hgetV : (storeKeyValue (evictPhase c) c.tail k v).V = updO c.V c.tail (some v) := rfl
  have htM : c.tail ∉ L.dropLast := by
    rw [htail]
    exact getLast?_not_mem_dropLast h.nodup (List.getLast?_eq_getLast_of_ne_nil hLne)
  rw [hset]
  refine ⟨inv', ?_, rfl, rfl, ?_⟩
  · rw [entries_eq inv', entries_eq h, List.map_cons, hgetK, hgetV, updO_same, updO_same]
    congr 1
    rw [← List.map_dropLast]
    refine List.map_congr_left ?_
    intro q hq
    have hqp : q ≠ c.tail := fun he => htM (he ▸ hq)
    rw [updO_ne _ _ _ hqp, updO_ne _ _ _ hqp]
  · rw [entries_eq h]
    conv in List.map _ L => rw [← hdecomp]
    rw [List.map_append, List.getLast?_append_of_ne_nil _ (by simp)]
    simp only [List.map_cons, List.map_nil, List.getLast?_singleton, Option.some.injEq]
    rw [htail]

end LRU

namespace LRU

/-- `get` on a hit splays the slot: its entry moves to the front and every
other entry keeps its relative order. -/
theorem get_hit {ν : Type} {c : Cache ν} {L : List Nat} {p : Nat} {k : JSKey}
    (h : CacheInv c L) (hp : c.items (keyStr k) = some p) :
    ∃ L', CacheInv (getState c k) L' ∧
      entriesList (getState c k) =
        (c.K p, c.V p) :: (entriesList c).filter (fun e => !(keyProp e.1 == keyStr k)) ∧
      keyProp (c.K p) = keyStr k := by
  obtain ⟨hpL, hkp⟩ := (h.items_iff _ _).mp hp
  obtain ⟨A, B, hL⟩ := List.append_of_mem hpL
  subst hL
  obtain ⟨ndA, ndPB, disj⟩ := List.nodup_append.mp h.nodup
  have hpA : p ∉ A := fun hm => disj hm (by simp)
  have hpB : p ∉ B := (List.nodup_cons.mp ndPB).1
  have hget : getState c k = splayOnTop c p := by
    unfold getState
    rw [hp]
  have inv' : CacheInv (splayOnTop c p) (p :: (A ++ B)) := h.splay
  have hkq : ∀ q, q ∈ A ++ B → keyProp (c.K q) ≠ keyStr k := by
    intro q hq he
    have := (h.items_iff (keyStr k) q).mpr ⟨mem_rotate.mp (List.mem_cons_of_mem _ hq), he⟩
    rw [hp] at this
    have hqp : q = p := (Option.some.inj this).symm
    subst hqp
    rcases List.mem_append.mp hq with hc | hc
    · exact hpA hc
    · exact hpB hc
  refine ⟨p :: (A ++ B), ?_, ?_, hkp⟩
  · rw [hget]; exact inv'
  · rw [hget, entries_eq inv', entries_eq h, splayOnTop_K, splayOnTop_V, List.map_cons]
    congr 1
    rw [List.map_append, List.map_append, List.map_cons, List.filter_append, List.filter_cons]
    have hpred : (!(keyProp (c.K p) == keyStr k)) = false := by
      simp [hkp]
    rw [hpred]
    simp only [Bool.false_eq_true, if_false]
    have hA : (A.map fun q => (c.K q, c.V q)).filter
        (fun e => !(keyProp e.1 == keyStr k)) = A.map fun q => (c.K q, c.V q) := by
      refine List.filter_eq_self.mpr ?_
      intro e he
      obtain ⟨q, hq, rfl⟩ := List.mem_map.mp he
      simpa using hkq q (List.mem_append_left _ hq)
    have hB : (B.map fun q => (c.K q, c.V q)).filter
        (fun e => !(keyProp e.1 == keyStr k)) = B.map fun q => (c.K q, c.V q) := by
      refine List.filter_eq_self.mpr ?_
      intro e he
      obtain ⟨q, hq, rfl⟩ := List.mem_map.mp he
      simpa using hkq q (List.mem_append_right _ hq)
    rw [hA, hB]

/-- The state mutation of `setpop` is the same as that of `set`. -/
theorem setpop_fst {ν : Type} (c : Cache ν) (k : JSKey) (v : ν) :
    (setpop c k v).1 = set c k v := by
  unfold setpop set
  cases hc : c.items (keyStr k) with
  | some pointer => rfl
  | none =>
    by_cases hlt : c.sz < c.capacity
    · rw [if_pos hlt, if_pos hlt]
    · rw [if_neg hlt, if_neg hlt]

/-- The state mutation of `setWithEvents` is the same as that of `set`. -/
theorem setWithEvents_fst {ν : Type} (c : Cache ν) (k : JSKey) (v : ν) :
    (setWithEvents c k v).1 = set c k v := by
  unfold setWithEvents set
  cases hc : c.items (keyStr k) with
  | some pointer => rfl
  | none =>
    by_cases hlt : c.sz < c.capacity
    · rw [if_pos hlt, if_pos hlt]
    · rw [if_neg hlt, if_neg hlt]

/-- Every public call preserves the structural invariant. -/
theorem CacheInv.applyOpInv {ν : Type} {c : Cache ν} {L : List Nat}
    (h : CacheInv c L) (op : Op ν) : ∃ L', CacheInv (applyOp c op) L' := by
  cases op with
  | setK k v =>
    show ∃ L', CacheInv (set c k v) L'
    cases hp : c.items (keyStr k) with
    | some pointer =>
      obtain ⟨L', hL', _⟩ := set_present v h hp
      exact ⟨L', hL'⟩
    | none =>
      by_cases hlt : c.sz < c.capacity
      · exact ⟨_, (set_fresh v h hp hlt).1⟩
      · exact ⟨_, (set_evict v h hp hlt).1⟩
  | setpopK k v =>
    show ∃ L', CacheInv (setpop c k v).1 L'
    rw [setpop_fst]
    cases hp : c.items (keyStr k) with
    | some pointer =>
      obtain ⟨L', hL', _⟩ := set_present v h hp
      exact ⟨L', hL'⟩
    | none =>
      by_cases hlt : c.sz < c.capacity
      · exact ⟨_, (set_fresh v h hp hlt).1⟩
      · exact ⟨_, (set_evict v h hp hlt).1⟩
  | getK k =>
    show ∃ L', CacheInv (getState c k) L'
    cases hp : c.items (keyStr k) with
    | some pointer =>
      obtain ⟨L', hL', _⟩ := get_hit h hp
      exact ⟨L', hL'⟩
    | none =>
      refine ⟨L, ?_⟩
      show CacheInv (getState c k) L
      unfold getState
      rw [hp]
      exact h
  | peekK k => exact ⟨L, h⟩
  | hasK k => exact ⟨L, h⟩
  | iterate => exact ⟨L, h⟩
  | clearC => exact ⟨[], h.clearInv⟩

/-- Invariant of every state reachable from an initial state. -/
theorem foldl_inv {ν : Type} :
    ∀ (ops : List (Op ν)) (c : Cache ν) (L : List Nat),
      CacheInv c L → ∃ L', CacheInv (ops.foldl applyOp c) L'
  | [], _, L, h => ⟨L, h⟩
  | op :: ops, c, L, h => by
    obtain ⟨L', h'⟩ := h.applyOpInv op
    exact foldl_inv ops _ L' h'

/-- Invariant of every state reachable from a freshly constructed cache. -/
theorem reach_inv {ν : Type} (cap : Nat) (hcap : 0 < cap) (ops : List (Op ν)) :
    ∃ L, CacheInv (reach cap ops) L :=
  foldl_inv ops _ [] (CacheInv.empty hcap)

end LRU

namespace LRU

/-! ### Constructor-validation helpers -/

/-- The constructor's capacity check passes exactly on positive integers. -/
theorem validCapacity_iff (v : JSVal) :
    validCapacity v = true ↔ ∃ n : Nat, 0 < n ∧ v = JSVal.num n := by
  cases v with
  | num q =>
    constructor
    · intro hv
      simp only [validCapacity, jsIsFinite, jsFloorNe, jsLeZero, Bool.true_and,
        Bool.and_eq_true, Bool.not_eq_true', decide_eq_false_iff_not, not_not,
        not_le] at hv
      obtain ⟨hfl, hpos⟩ := hv
      have hfpos : 0 < ⌊q⌋ := by
        have : (0 : ℚ) < ((⌊q⌋ : ℤ) : ℚ) := by rw [hfl]; exact hpos
        exact_mod_cast this
      refine ⟨(⌊q⌋).toNat, by omega, ?_⟩
      have hnn : ((⌊q⌋).toNat : ℤ) = ⌊q⌋ := Int.toNat_of_nonneg (le_of_lt hfpos)
      have hq : ((((⌊q⌋).toNat : ℕ) : ℚ)) = q := by
        rw [← hfl, ← hnn]
        norm_cast
      exact congrArg JSVal.num hq.symm
    · rintro ⟨n, hn, he⟩
      obtain rfl : q = (n : ℚ) := JSVal.num.inj he
      simp only [validCapacity, jsIsFinite, jsFloorNe, jsLeZero, Bool.true_and]
      have h1 : ((⌊(n : ℚ)⌋ : ℤ) : ℚ) = (n : ℚ) := by
        rw [Int.floor_natCast]
        norm_cast
      have h2 : ¬ ((n : ℚ) ≤ 0) := by
        rw [not_le]
        exact_mod_cast hn
      simp [h1, h2]
  | nan => simp [validCapacity, jsIsFinite]
  | posInf => simp [validCapacity, jsIsFinite]
  | negInf => simp [validCapacity, jsIsFinite]
  | boolean b => simp [validCapacity, jsIsFinite, jsFloorNe]
  | undef => simp [validCapacity, jsIsFinite]
  | obj => simp [validCapacity, jsIsFinite]

/-- Construction with a positive integer capacity in the supported range
produces the empty cache of that capacity. -/
theorem construct_nat {ν : Type} (n : Nat) (hn : 0 < n) (hle : n ≤ 4294967296) :
    (construct (.num n) : Except CacheError (Cache ν)) = .ok (emptyCache n) := by
  have hv : validCapacity (.num n) = true := (validCapacity_iff _).mpr ⟨n, hn, rfl⟩
  unfold construct
  rw [if_neg (by simp [hv])]
  have hcap : jsCapacityNat (.num n) = n := by
    simp only [jsCapacityNat, Int.floor_natCast, Int.toNat_natCast]
  rw [hcap]
  simp only [getPointerArray]
  split_ifs <;> first | rfl | omega

end LRU

namespace LRU

/-! ### Claim theorems -/

/-- C8: for every positive capacity, the slot-width selector picks the 8-bit
class when `capacity - 1 ≤ 255`, the 16-bit class when it is at most 65535,
the 32-bit class when it is at most 4294967295, and fails with the
capacity-unsupported error exactly when `capacity - 1` exceeds 4294967295.
(The selected width is used only to pick the typed-array class in the
constructor; no cache operation in this development depends on it.) -/
theorem C8_pointer_width (cap : Nat) (hcap : 1 ≤ cap) :
    (cap - 1 ≤ 255 → getPointerArray cap = .ok .u8)
  ∧ (255 < cap - 1 → cap - 1 ≤ 65535 → getPointerArray cap = .ok .u16)
  ∧ (65535 < cap - 1 → cap - 1 ≤ 4294967295 → getPointerArray cap = .ok .u32)
  ∧ (getPointerArray cap = .error .capacityUnsupported ↔ 4294967295 < cap - 1) := by
  simp only [getPointerArray]
  refine ⟨?_, ?_, ?_, ?_⟩
  · intro h1
    rw [if_pos h1]
  · intro h1 h2
    rw [if_neg (by omega), if_pos h2]
  · intro h1 h2
    rw [if_neg (by omega), if_neg (by omega), if_pos h2]
  · constructor
    · intro he
      by_contra hlt
      split_ifs at he <;> simp_all
    · intro hgt
      rw [if_neg (by omega), if_neg (by omega), if_neg (by omega)]

theorem C8_pointer_width_witness :
    (getPointerArray 256 = .ok .u8)
  ∧ (getPointerArray 300 = .ok .u16)
  ∧ (getPointerArray 70000 = .ok .u32)
  ∧ (getPointerArray 4294967297 = .error .capacityUnsupported) :=
  ⟨(C8_pointer_width 256 (by decide)).1 (by decide),
   (C8_pointer_width 300 (by decide)).2.1 (by decide) (by decide),
   (C8_pointer_width 70000 (by decide)).2.2.1 (by decide) (by decide),
   ((C8_pointer_width 4294967297 (by decide)).2.2.2).mpr (by decide)⟩

/-- C6: construction fails with the invalid-capacity error, producing no
cache, exactly when the capacity argument is not a finite positive integer
(`undefined`, objects, `NaN`, infinities, booleans, non-positive or
fractional numbers), and succeeds for every positive integer capacity in
the supported range, producing the empty cache of that capacity. -/
theorem C6_constructor_validation (v : JSVal) :
    ((construct v : Except CacheError (Cache Nat)) = .error .invalidCapacity
      ↔ ¬ ∃ n : Nat, 0 < n ∧ v = JSVal.num n)
  ∧ (∀ n : Nat, 0 < n → n ≤ 4294967296 →
      (construct (.num n) : Except CacheError (Cache Nat)) = .ok (emptyCache n)) := by
  constructor
  · by_cases hv : validCapacity v = true
    · obtain ⟨n, hn, rfl⟩ := (validCapacity_iff v).mp hv
      refine iff_of_false ?_ (fun h => h ⟨n, hn, rfl⟩)
      intro hc
      unfold construct at hc
      rw [if_neg (by simp [hv])] at hc
      simp only [getPointerArray] at hc
      split_ifs at hc <;> simp_all [Except.map]
    · have hv' : validCapacity v = false := by
        cases hvv : validCapacity v
        · rfl
        · exact absurd hvv hv
      refine iff_of_true ?_ ?_
      · unfold construct
        rw [if_pos hv']
      · intro he
        rw [(validCapacity_iff v).mpr he] at hv'
        exact Bool.noConfusion hv'
  · intro n hn hle
    exact construct_nat n hn hle

theorem C6_constructor_validation_witness :
    ((construct (JSVal.boolean true) : Except CacheError (Cache Nat))
        = .error .invalidCapacity
      ↔ ¬ ∃ n : Nat, 0 < n ∧ JSVal.boolean true = JSVal.num n)
  ∧ (construct (JSVal.num 3) : Except CacheError (Cache Nat)) = .ok (emptyCache 3) :=
  ⟨(C6_constructor_validation (JSVal.boolean true)).1,
   (C6_constructor_validation (JSVal.boolean true)).2 3 (by decide) (by decide)⟩

end LRU

namespace LRU

/-- C1: evaluation of the `setpop` truthiness bug.  With capacity 1 and the
falsy key `""` stored, `setpop("a", 2)` displaces `""` — the key leaves the
index and the `"evicted"` event fires with `("", 1)` — yet the call returns
`null`, because the eviction branch guards its return value with the
JavaScript truthiness test `if (oldKey)`, which is false for the evicted
key `""`.  This contradicts the function's own documentation ("Return value
is null if nothing was evicted or overwritten during the set operation")
and the claim's "evicted-outcome iff key absent and cache full". -/
theorem C1_setpop_falsy_eviction :
    (setpop (set (emptyCache 1 : Cache Nat) (.str ("")) 1) (.str ("a")) 2).2
        = SetpopResult.null
  ∧ hasB (set (emptyCache 1 : Cache Nat) (.str ("")) 1) (.str ("")) = true
  ∧ hasB ((setpop (set (emptyCache 1 : Cache Nat) (.str ("")) 1) (.str ("a")) 2).1)
        (.str ("")) = false
  ∧ (setWithEvents (set (emptyCache 1 : Cache Nat) (.str ("")) 1) (.str ("a")) 2).2
        = [(some (.str ("")), some 1)] := by
  refine ⟨rfl, rfl, rfl, rfl⟩

end LRU

namespace LRU

/-- A concrete full cache of capacity 1 holding the key `"a"`. -/
def c2wit : Cache Nat := set (emptyCache 1) (.str ("a")) 1

/-- C2 is false on the code: the eviction branch of `set` emits the
`"evicted"` event *before* `storeKeyValue` runs, so at the moment a handler
observes (and can fail), the new key `"b"` is not yet in the key index —
the mutation is left half-done by a failing handler.  The second conjunct
pins the code path: the committed state is obtained from the emit-time
state by a subsequent `storeKeyValue`. -/
theorem C2_counterexample :
    hasB (evictPhase c2wit) (.str ("b")) = false
  ∧ set c2wit (.str ("b")) 2
      = storeKeyValue (evictPhase c2wit) c2wit.tail (.str ("b")) 2 := by
  refine ⟨rfl, rfl⟩

/-- C2 amended: when `set` on a full cache evicts, the *eviction* is
committed before the notification fires — the tail pointer has advanced and
the evicted key has left the key index — but the new entry is committed
only by the `storeKeyValue` that runs after the handlers return; a failing
handler therefore leaves the eviction applied and the new entry absent. -/
theorem C2_commit_after_notification {ν : Type} (c : Cache ν) (k : JSKey) (v : ν)
    (hnone : c.items (keyStr k) = none) (hfull : ¬ c.sz < c.capacity) :
    set c k v = storeKeyValue (evictPhase c) c.tail k v
  ∧ (evictPhase c).items (keyStr k) = none
  ∧ (evictPhase c).items (keyProp (c.K c.tail)) = none
  ∧ (evictPhase c).tail = c.backward c.tail
  ∧ (evictPhase c).sz = c.sz := by
  refine ⟨?_, ?_, ?_, rfl, rfl⟩
  · unfold set
    rw [hnone, if_neg hfull]
  · show updS c.items (keyProp (c.K c.tail)) none (keyStr k) = none
    by_cases hs : keyStr k = keyProp (c.K c.tail)
    · rw [hs, updS_same]
    · rw [updS_ne _ _ _ hs]
      exact hnone
  · exact updS_same _ _ _

theorem C2_commit_after_notification_witness :
    (set c2wit (.str ("b")) 2 = storeKeyValue (evictPhase c2wit) c2wit.tail (.str ("b")) 2
        ∧ (evictPhase c2wit).items (keyStr (.str ("b"))) = none
        ∧ (evictPhase c2wit).items (keyProp (c2wit.K c2wit.tail)) = none
        ∧ (evictPhase c2wit).tail = c2wit.backward c2wit.tail
        ∧ (evictPhase c2wit).sz = c2wit.sz) :=
  C2_commit_after_notification c2wit (.str ("b")) 2 rfl (by decide)

end LRU

namespace LRU

/-- C7 is false on the code: `items` is a plain JS object, so the numeric
key `1` and the string key `"1"` coerce to the same property string and
alias the same entry.  On an empty capacity-2 cache (no eviction involved),
`set(1, 10)` flips `has("1")` from `false` to `true`. -/
theorem C7_counterexample :
    hasB (emptyCache 2 : Cache Nat) (.str ("1")) = false
  ∧ hasB (set (emptyCache 2 : Cache Nat) (.num 1) 10) (.str ("1")) = true := by
  refine ⟨rfl, by decide⟩

/-- `get` returns the same value `peek` would: the splay does not touch `V`. -/
theorem getV_eq_peekV {ν : Type} (c : Cache ν) (k : JSKey) : getV c k = peekV c k := by
  unfold getV peekV
  cases c.items (keyStr k) with
  | none => rfl
  | some pointer =>
    show (splayOnTop c pointer).V pointer = c.V pointer
    rw [splayOnTop_V]

/-- C7 amended: keys are compared by their JS property-string coercion, so
a numeric and a string key that print the same alias one entry.  For keys
with *distinct* coercions, and provided the `set` does not evict (the key
is already present or the cache has room), operations on `k₁` leave `k₂`'s
observations unchanged. -/
theorem C7_distinct_strings_independent {ν : Type} (cap : Nat) (ops : List (Op ν))
    (k₁ k₂ : JSKey) (v : ν) (hcap : 1 ≤ cap)
    (hne : keyStr k₁ ≠ keyStr k₂)
    (hroom : ((reach cap ops).items (keyStr k₁)).isSome
        ∨ (reach cap ops).sz < (reach cap ops).capacity) :
    hasB (set (reach cap ops) k₁ v) k₂ = hasB (reach cap ops) k₂
  ∧ peekV (set (reach cap ops) k₁ v) k₂ = peekV (reach cap ops) k₂
  ∧ getV (set (reach cap ops) k₁ v) k₂ = getV (reach cap ops) k₂ := by
  obtain ⟨L, h⟩ := reach_inv cap hcap ops
  have main : (set (reach cap ops) k₁ v).items (keyStr k₂)
        = (reach cap ops).items (keyStr k₂)
      ∧ ∀ p, (reach cap ops).items (keyStr k₂) = some p →
          (set (reach cap ops) k₁ v).V p = (reach cap ops).V p := by
    cases hp : (reach cap ops).items (keyStr k₁) with
    | some pointer =>
      have hset : set (reach cap ops) k₁ v
          = setValue (splayOnTop (reach cap ops) pointer) pointer v := by
        unfold set
        rw [hp]
      constructor
      · rw [hset]
        show (splayOnTop (reach cap ops) pointer).items (keyStr k₂) = _
        rw [splayOnTop_items]
      · intro p hp2
        have hne2 : p ≠ pointer := by
          intro he
          have h1 := ((h.items_iff _ _).mp hp).2
          have h2 := ((h.items_iff _ _).mp hp2).2
          rw [he] at h2
          exact hne (h1 ▸ h2 ▸ rfl)
        rw [hset]
        show updO (splayOnTop (reach cap ops) pointer).V pointer (some v) p = _
        rw [updO_ne _ _ _ hne2, splayOnTop_V]
    | none =>
      have hlt : (reach cap ops).sz < (reach cap ops).capacity := by
        rcases hroom with hs | hs
        · rw [hp] at hs
          exact absurd hs (by simp)
        · exact hs
      have hset : set (reach cap ops) k₁ v
          = storeKeyValue { reach cap ops with sz := (reach cap ops).sz + 1 }
              (reach cap ops).sz k₁ v := by
        unfold set
        rw [hp, if_pos hlt]
      constructor
      · rw [hset]
        show updS (reach cap ops).items (keyStr k₁) (some (reach cap ops).sz) (keyStr k₂) = _
        rw [updS_ne _ _ _ (Ne.symm hne)]
      · intro p hp2
        have hplt : p < (reach cap ops).sz := h.mem_lt p ((h.items_iff _ _).mp hp2).1
        rw [hset]
        show updO (reach cap ops).V (reach cap ops).sz (some v) p = _
        rw [updO_ne _ _ _ (by omega)]
  refine ⟨?_, ?_, ?_⟩
  · unfold hasB
    rw [main.1]
  · unfold peekV
    rw [main.1]
    cases hp2 : (reach cap ops).items (keyStr k₂) with
    | none => rfl
    | some p => exact main.2 p hp2
  · rw [getV_eq_peekV, getV_eq_peekV]
    unfold peekV
    rw [main.1]
    cases hp2 : (reach cap ops).items (keyStr k₂) with
    | none => rfl
    | some p => exact main.2 p hp2

theorem C7_distinct_strings_independent_witness :
    hasB (set (reach 2 [Op.setK (.str ("y")) 5] : Cache Nat) (.str ("x")) 7) (.str ("y"))
        = hasB (reach 2 [Op.setK (.str ("y")) 5] : Cache Nat) (.str ("y"))
  ∧ peekV (set (reach 2 [Op.setK (.str ("y")) 5] : Cache Nat) (.str ("x")) 7) (.str ("y"))
        = peekV (reach 2 [Op.setK (.str ("y")) 5] : Cache Nat) (.str ("y"))
  ∧ getV (set (reach 2 [Op.setK (.str ("y")) 5] : Cache Nat) (.str ("x")) 7) (.str ("y"))
        = getV (reach 2 [Op.setK (.str ("y")) 5] : Cache Nat) (.str ("y")) :=
  C7_distinct_strings_independent 2 [Op.setK (.str ("y")) 5] (.str ("x")) (.str ("y")) 7
    (by decide) (by decide) (Or.inr (by decide))

end LRU

namespace LRU

/-- The chain walked by the iterators equals the invariant's slot list. -/
theorem walkChain_inv {ν : Type} {c : Cache ν} {L : List Nat} (h : CacheInv c L) :
    walkChain c.forward c.head c.sz = L := by
  cases hL : L with
  | nil =>
    rw [h.size_eq, hL]
    rfl
  | cons x xs =>
    rw [h.size_eq, walkChain_eq h.links (h.head_eq (by simp [hL]))]
    exact hL

/-- C5: in every state reachable from a fresh cache by any sequence of
`set`, `setpop`, `get`, `peek`, `has`, `clear` and iteration calls, the size
is at most the capacity (and at least 0, trivially in `ℕ`); the chain that
starts at `head` and follows `forward` visits exactly `size` distinct slots
and ends at `tail`; and the key index holds exactly the property strings of
the chain's slots, each mapped to the unique slot storing a key with that
string. -/
theorem C5_reachable_invariants {ν : Type} (cap : Nat) (ops : List (Op ν)) (hcap : 1 ≤ cap) :
    (reach cap ops).sz ≤ (reach cap ops).capacity
  ∧ (walkChain (reach cap ops).forward (reach cap ops).head (reach cap ops).sz).length
      = (reach cap ops).sz
  ∧ (walkChain (reach cap ops).forward (reach cap ops).head (reach cap ops).sz).Nodup
  ∧ ((reach cap ops).sz ≠ 0 →
      (walkChain (reach cap ops).forward (reach cap ops).head (reach cap ops).sz).getLast?
        = some (reach cap ops).tail)
  ∧ (∀ s p, (reach cap ops).items s = some p ↔
      p ∈ walkChain (reach cap ops).forward (reach cap ops).head (reach cap ops).sz
        ∧ keyProp ((reach cap ops).K p) = s) := by
  obtain ⟨L, h⟩ := reach_inv cap hcap ops
  have hw := walkChain_inv h
  rw [hw]
  refine ⟨h.size_le, h.size_eq.symm, h.nodup, ?_, h.items_iff⟩
  intro hsz
  refine h.tail_eq ?_
  intro hL
  rw [h.size_eq, hL] at hsz
  exact hsz rfl

theorem C5_reachable_invariants_witness :
    (reach 2 [Op.setK (.str ("a")) 1, Op.setK (.str ("b")) 2, Op.getK (.str ("a")),
        Op.setpopK (.str ("c")) 3] : Cache Nat).sz
      ≤ (reach 2 [Op.setK (.str ("a")) 1, Op.setK (.str ("b")) 2, Op.getK (.str ("a")),
        Op.setpopK (.str ("c")) 3] : Cache Nat).capacity
  ∧ (walkChain (reach 2 [Op.setK (.str ("a")) 1, Op.setK (.str ("b")) 2, Op.getK (.str ("a")),
        Op.setpopK (.str ("c")) 3] : Cache Nat).forward
      (reach 2 [Op.setK (.str ("a")) 1, Op.setK (.str ("b")) 2, Op.getK (.str ("a")),
        Op.setpopK (.str ("c")) 3] : Cache Nat).head
      (reach 2 [Op.setK (.str ("a")) 1, Op.setK (.str ("b")) 2, Op.getK (.str ("a")),
        Op.setpopK (.str ("c")) 3] : Cache Nat).sz).length
      = (reach 2 [Op.setK (.str ("a")) 1, Op.setK (.str ("b")) 2, Op.getK (.str ("a")),
        Op.setpopK (.str ("c")) 3] : Cache Nat).sz
  ∧ (walkChain (reach 2 [Op.setK (.str ("a")) 1, Op.setK (.str ("b")) 2, Op.getK (.str ("a")),
        Op.setpopK (.str ("c")) 3] : Cache Nat).forward
      (reach 2 [Op.setK (.str ("a")) 1, Op.setK (.str ("b")) 2, Op.getK (.str ("a")),
        Op.setpopK (.str ("c")) 3] : Cache Nat).head
      (reach 2 [Op.setK (.str ("a")) 1, Op.setK (.str ("b")) 2, Op.getK (.str ("a")),
        Op.setpopK (.str ("c")) 3] : Cache Nat).sz).Nodup
  ∧ ((reach 2 [Op.setK (.str ("a")) 1, Op.setK (.str ("b")) 2, Op.getK (.str ("a")),
        Op.setpopK (.str ("c")) 3] : Cache Nat).sz ≠ 0 →
      (walkChain (reach 2 [Op.setK (.str ("a")) 1, Op.setK (.str ("b")) 2, Op.getK (.str ("a")),
        Op.setpopK (.str ("c")) 3] : Cache Nat).forward
        (reach 2 [Op.setK (.str ("a")) 1, Op.setK (.str ("b")) 2, Op.getK (.str ("a")),
          Op.setpopK (.str ("c")) 3] : Cache Nat).head
        (reach 2 [Op.setK (.str ("a")) 1, Op.setK (.str ("b")) 2, Op.getK (.str ("a")),
          Op.setpopK (.str ("c")) 3] : Cache Nat).sz).getLast?
        = some (reach 2 [Op.setK (.str ("a")) 1, Op.setK (.str ("b")) 2, Op.getK (.str ("a")),
          Op.setpopK (.str ("c")) 3] : Cache Nat).tail)
  ∧ (∀ s p, (reach 2 [Op.setK (.str ("a")) 1, Op.setK (.str ("b")) 2, Op.getK (.str ("a")),
        Op.setpopK (.str ("c")) 3] : Cache Nat).items s = some p ↔
      p ∈ walkChain (reach 2 [Op.setK (.str ("a")) 1, Op.setK (.str ("b")) 2,
          Op.getK (.str ("a")), Op.setpopK (.str ("c")) 3] : Cache Nat).forward
        (reach 2 [Op.setK (.str ("a")) 1, Op.setK (.str ("b")) 2, Op.getK (.str ("a")),
          Op.setpopK (.str ("c")) 3] : Cache Nat).head
        (reach 2 [Op.setK (.str ("a")) 1, Op.setK (.str ("b")) 2, Op.getK (.str ("a")),
          Op.setpopK (.str ("c")) 3] : Cache Nat).sz
        ∧ keyProp ((reach 2 [Op.setK (.str ("a")) 1, Op.setK (.str ("b")) 2,
          Op.getK (.str ("a")), Op.setpopK (.str ("c")) 3] : Cache Nat).K p) = s) :=
  C5_reachable_invariants 2 [Op.setK (.str ("a")) 1, Op.setK (.str ("b")) 2,
    Op.getK (.str ("a")), Op.setpopK (.str ("c")) 3] (by decide)

end LRU

namespace LRU

/-- C3: on a reachable full cache, `set` with an absent key emits exactly
one `"evicted"` event carrying the tail slot's stored key and value (the
last entry of `entries()`), replaces that tail entry by the new pair at the
head of `entries()`, and keeps the size equal to the capacity; no event is
emitted when the key already exists or the cache has room. -/
theorem C3_eviction_notification {ν : Type} (cap : Nat) (ops : List (Op ν))
    (k : JSKey) (v : ν) (hcap : 1 ≤ cap) :
    ((reach cap ops).items (keyStr k) = none →
      (reach cap ops).sz = (reach cap ops).capacity →
        (setWithEvents (reach cap ops) k v).2
            = [((reach cap ops).K (reach cap ops).tail,
                (reach cap ops).V (reach cap ops).tail)]
      ∧ (entriesList (reach cap ops)).getLast?
            = some ((reach cap ops).K (reach cap ops).tail,
                (reach cap ops).V (reach cap ops).tail)
      ∧ entriesList (set (reach cap ops) k v)
            = (some k, some v) :: (entriesList (reach cap ops)).dropLast
      ∧ (set (reach cap ops) k v).sz = (reach cap ops).capacity)
  ∧ (((reach cap ops).items (keyStr k)).isSome ∨
        (reach cap ops).sz < (reach cap ops).capacity →
      (setWithEvents (reach cap ops) k v).2 = []) := by
  obtain ⟨L, h⟩ := reach_inv cap hcap ops
  constructor
  · intro hnone hfull
    have hnlt : ¬ (reach cap ops).sz < (reach cap ops).capacity := by omega
    have hev : (setWithEvents (reach cap ops) k v).2
        = [((reach cap ops).K (reach cap ops).tail,
            (reach cap ops).V (reach cap ops).tail)] := by
      unfold setWithEvents
      rw [hnone, if_neg hnlt]
    obtain ⟨_, hentries, hsz, hcap', hlast⟩ := set_evict v h hnone hnlt
    exact ⟨hev, hlast, hentries, by rw [hsz, hfull]⟩
  · intro hother
    cases hp : (reach cap ops).items (keyStr k) with
    | some pointer =>
      unfold setWithEvents
      rw [hp]
    | none =>
      have hlt : (reach cap ops).sz < (reach cap ops).capacity := by
        rcases hother with hs | hs
        · rw [hp] at hs
          exact absurd hs (by simp)
        · exact hs
      unfold setWithEvents
      rw [hp, if_pos hlt]

theorem C3_eviction_notification_witness :
    ((reach 1 [Op.setK (.str ("a")) 1] : Cache Nat).items (keyStr (.str ("b"))) = none →
      (reach 1 [Op.setK (.str ("a")) 1] : Cache Nat).sz
          = (reach 1 [Op.setK (.str ("a")) 1] : Cache Nat).capacity →
        (setWithEvents (reach 1 [Op.setK (.str ("a")) 1] : Cache Nat) (.str ("b")) 2).2
            = [((reach 1 [Op.setK (.str ("a")) 1] : Cache Nat).K
                  (reach 1 [Op.setK (.str ("a")) 1] : Cache Nat).tail,
                (reach 1 [Op.setK (.str ("a")) 1] : Cache Nat).V
                  (reach 1 [Op.setK (.str ("a")) 1] : Cache Nat).tail)]
      ∧ (entriesList (reach 1 [Op.setK (.str ("a")) 1] : Cache Nat)).getLast?
            = some ((reach 1 [Op.setK (.str ("a")) 1] : Cache Nat).K
            (reach 1 [Op.setK (.str ("a")) 1] : Cache Nat).tail,
                (reach 1 [Op.setK (.str ("a")) 1] : Cache Nat).V
                  (reach 1 [Op.setK (.str ("a")) 1] : Cache Nat).tail)
      ∧ entriesList (set (reach 1 [Op.setK (.str ("a")) 1] : Cache Nat) (.str ("b")) 2)
            = (some (.str ("b")), some 2)
              :: (entriesList (reach 1 [Op.setK (.str ("a")) 1] : Cache Nat)).dropLast
      ∧ (set (reach 1 [Op.setK (.str ("a")) 1] : Cache Nat) (.str ("b")) 2).sz
            = (reach 1 [Op.setK (.str ("a")) 1] : Cache Nat).capacity)
  ∧ (((reach 1 [Op.setK (.str ("a")) 1] : Cache Nat).items (keyStr (.str ("b")))).isSome ∨
        (reach 1 [Op.setK (.str ("a")) 1] : Cache Nat).sz
          < (reach 1 [Op.setK (.str ("a")) 1] : Cache Nat).capacity →
      (setWithEvents (reach 1 [Op.setK (.str ("a")) 1] : Cache Nat) (.str ("b")) 2).2 = []) :=
  C3_eviction_notification 1 [Op.setK (.str ("a")) 1] (.str ("b")) 2 (by decide)

end LRU

namespace LRU

/-- C4 is false on the code for aliased keys: with the numeric key `1`
stored, the string key `"1"` is "present" (`has` is true), yet after
`set("1", 7)` the head of `entries()` is the entry `(1, 7)` — the stored
key is still the number `1`, not the string `"1"`, because the overwrite
branch of `set` never updates `K`. -/
theorem C4_counterexample :
    hasB (set (emptyCache 2 : Cache Nat) (.num 1) 5) (.str ("1")) = true
  ∧ (entriesList (set (set (emptyCache 2 : Cache Nat) (.num 1) 5) (.str ("1")) 7)).head?
      ≠ some (some (.str ("1")), some 7)
  ∧ entriesList (set (set (emptyCache 2 : Cache Nat) (.num 1) 5) (.str ("1")) 7)
      = [(some (.num 1), some 7)] := by
  refine ⟨by decide, by decide, by decide⟩

/-- C4 amended: on every reachable cache, after `set(k, v)` the head of
`entries()` is the entry of the slot the key index assigns to `k`'s
property string — its value is `v`, its key coerces to the same property
string as `k`, and it is `k` itself whenever `k` was absent (it may be an
aliased key that prints the same when `k` overwrote such an entry); the
other live entries keep their relative order (the tail of the new
`entries()` is a sublist of the old one).  After a `get(k)` hit the hit
slot's entry moves to the head, the others keeping their relative order,
and `peek` leaves the state — hence `entries()` — unchanged. -/
theorem C4_recency_order {ν : Type} (cap : Nat) (ops : List (Op ν))
    (k : JSKey) (v : ν) (hcap : 1 ≤ cap) :
    (∃ k₀, (entriesList (set (reach cap ops) k v)).head? = some (k₀, some v)
        ∧ keyProp k₀ = keyStr k
        ∧ ((reach cap ops).items (keyStr k) = none → k₀ = some k)
        ∧ List.Sublist ((entriesList (set (reach cap ops) k v)).tail)
            (entriesList (reach cap ops)))
  ∧ (∀ p, (reach cap ops).items (keyStr k) = some p →
        (entriesList (getState (reach cap ops) k)).head?
            = some ((reach cap ops).K p, (reach cap ops).V p)
        ∧ keyProp ((reach cap ops).K p) = keyStr k
        ∧ List.Sublist ((entriesList (getState (reach cap ops) k)).tail)
            (entriesList (reach cap ops)))
  ∧ entriesList (applyOp (reach cap ops) (Op.peekK k)) = entriesList (reach cap ops) := by
  obtain ⟨L, h⟩ := reach_inv cap hcap ops
  refine ⟨?_, ?_, rfl⟩
  · cases hp : (reach cap ops).items (keyStr k) with
    | some pointer =>
      obtain ⟨L', _, hentries, _, _, hkp⟩ := set_present v h hp
      refine ⟨(reach cap ops).K pointer, ?_, hkp, ?_, ?_⟩
      · rw [hentries]
        rfl
      · intro hc
        exact Option.noConfusion hc
      · rw [hentries]
        exact List.filter_sublist _
    | none =>
      by_cases hlt : (reach cap ops).sz < (reach cap ops).capacity
      · obtain ⟨_, hentries, _, _⟩ := set_fresh v h hp hlt
        refine ⟨some k, by rw [hentries]; rfl, rfl, fun _ => rfl, ?_⟩
        rw [hentries]
        exact List.Sublist.refl _
      · obtain ⟨_, hentries, _, _, _⟩ := set_evict v h hp hlt
        refine ⟨some k, by rw [hentries]; rfl, rfl, fun _ => rfl, ?_⟩
        rw [hentries]
        exact List.dropLast_sublist _
  · intro p hp
    obtain ⟨L', _, hentries, hkp⟩ := get_hit h hp
    refine ⟨by rw [hentries]; rfl, hkp, ?_⟩
    rw [hentries]
    exact List.filter_sublist _

theorem C4_recency_order_witness :
    (∃ k₀, (entriesList (set (reach 2 [Op.setK (.str ("a")) 1] : Cache Nat) (.str ("b")) 2)).head?
          = some (k₀, some 2)
        ∧ keyProp k₀ = keyStr (.str ("b"))
        ∧ ((reach 2 [Op.setK (.str ("a")) 1] : Cache Nat).items (keyStr (.str ("b"))) = none →
            k₀ = some (.str ("b")))
        ∧ List.Sublist
            ((entriesList (set (reach 2 [Op.setK (.str ("a")) 1] : Cache Nat) (.str ("b")) 2)).tail)
            (entriesList (reach 2 [Op.setK (.str ("a")) 1] : Cache Nat)))
  ∧ (∀ p, (reach 2 [Op.setK (.str ("a")) 1] : Cache Nat).items (keyStr (.str ("b"))) = some p →
        (entriesList (getState (reach 2 [Op.setK (.str ("a")) 1] : Cache Nat) (.str ("b")))).head?
            = some ((reach 2 [Op.setK (.str ("a")) 1] : Cache Nat).K p,
                (reach 2 [Op.setK (.str ("a")) 1] : Cache Nat).V p)
        ∧ keyProp ((reach 2 [Op.setK (.str ("a")) 1] : Cache Nat).K p) = keyStr (.str ("b"))
        ∧ List.Sublist
            ((entriesList (getState (reach 2 [Op.setK (.str ("a")) 1] : Cache Nat) (.str ("b")))).tail)
            (entriesList (reach 2 [Op.setK (.str ("a")) 1] : Cache Nat)))
  ∧ entriesList (applyOp (reach 2 [Op.setK (.str ("a")) 1] : Cache Nat) (Op.peekK (.str ("b"))))
      = entriesList (reach 2 [Op.setK (.str ("a")) 1] : Cache Nat) :=
  C4_recency_order 2 [Op.setK (.str ("a")) 1] (.str ("b")) 2 (by decide)

end LRU

namespace LRU

/-- Replaying alias-free pairs into a cache with enough room builds exactly
the MRU-first, last-value-wins entry list.  `acc` is the abstract entry
list already in the cache. -/
theorem fold_entries_aux {ν : Type} :
    ∀ (ps : List (JSKey × ν)) (c : Cache ν) (L : List Nat) (acc : List (JSKey × ν)),
      CacheInv c L →
      entriesList c = acc.map (fun e => (some e.1, some e.2)) →
      c.sz + ps.length ≤ c.capacity →
      (∀ e₁, e₁ ∈ acc ++ ps → ∀ e₂, e₂ ∈ acc ++ ps →
        keyStr e₁.1 = keyStr e₂.1 → e₁.1 = e₂.1) →
      ∃ L', CacheInv (ps.foldl (fun c kv => set c kv.1 kv.2) c) L' ∧
        entriesList (ps.foldl (fun c kv => set c kv.1 kv.2) c)
          = (ps.foldl (fun a kv => absSet a kv.1 kv.2) acc).map
              (fun e => (some e.1, some e.2)) ∧
        (ps.foldl (fun c kv => set c kv.1 kv.2) c).capacity = c.capacity
  | [], c, L, acc, h, hent, _, _ => ⟨L, h, by simpa using hent, rfl⟩
  | (k, v) :: rest, c, L, acc, h, hent, hsz, halias => by
    -- every stored entry of the cache is an `acc` entry living in the index
    have hacc : ∀ e, e ∈ acc → ∃ q, q ∈ L ∧ c.K q = some e.1 := by
      intro e he
      have hmem : (some e.1, some e.2) ∈ entriesList c := by
        rw [hent]
        exact List.mem_map.mpr ⟨e, he, rfl⟩
      rw [entries_eq h] at hmem
      obtain ⟨q, hq, hqe⟩ := List.mem_map.mp hmem
      exact ⟨q, hq, (Prod.mk.injEq _ _ _ _ ▸ hqe).1⟩
    have hsub : ∀ e, e ∈ (absSet acc k v) ++ rest → e ∈ acc ++ (k, v) :: rest := by
      intro e he
      rcases List.mem_append.mp he with he | he
      · rcases List.mem_cons.mp he with rfl | he
        · exact List.mem_append_right _ (List.mem_cons_self _ _)
        · exact List.mem_append_left _ (List.mem_of_mem_filter he)
      · exact List.mem_append_right _ (List.mem_cons_of_mem _ he)
    have halias' : ∀ e₁, e₁ ∈ (absSet acc k v) ++ rest → ∀ e₂,
        e₂ ∈ (absSet acc k v) ++ rest → keyStr e₁.1 = keyStr e₂.1 → e₁.1 = e₂.1 :=
      fun e₁ h1 e₂ h2 => halias e₁ (hsub _ h1) e₂ (hsub _ h2)
    simp only [List.foldl_cons]
    cases hp : c.items (keyStr k) with
    | none =>
      have hlt : c.sz < c.capacity := by
        simp only [List.length_cons] at hsz
        omega
      obtain ⟨inv', hentries, hsz', hcap'⟩ := set_fresh v h hp hlt
      have hfilter : acc.filter (fun e => !(keyStr e.1 == keyStr k)) = acc := by
        refine List.filter_eq_self.mpr ?_
        intro e he
        obtain ⟨q, hqL, hqK⟩ := hacc e he
        have : c.items (keyStr e.1) = some q := by
          refine (h.items_iff _ _).mpr ⟨hqL, ?_⟩
          rw [hqK]
          rfl
        simp only [Bool.not_eq_true', beq_eq_false_iff_ne, ne_eq]
        intro heq
        rw [heq, hp] at this
        exact Option.noConfusion this
      have hent' : entriesList (set c k v) = (absSet acc k v).map
          (fun e => (some e.1, some e.2)) := by
        rw [hentries, hent]
        unfold absSet
        rw [hfilter, List.map_cons]
      obtain ⟨L', hinv, hrec, hcaprec⟩ := fold_entries_aux rest (set c k v) (c.sz :: L)
        (absSet acc k v) inv' hent'
        (by rw [hsz', hcap']; simp only [List.length_cons] at hsz; omega) halias'
      exact ⟨L', hinv, by rw [hrec], by rw [hcaprec, hcap']⟩
    | some pointer =>
      obtain ⟨L2, inv', hentries, hsz', hcap', hkp⟩ := set_present v h hp
      have hKp : c.K pointer = some k := by
        have hpL : pointer ∈ L := ((h.items_iff _ _).mp hp).1
        have hmem : (c.K pointer, c.V pointer) ∈ entriesList c := by
          rw [entries_eq h]
          exact List.mem_map.mpr ⟨pointer, hpL, rfl⟩
        rw [hent] at hmem
        obtain ⟨e, he, hee⟩ := List.mem_map.mp hmem
        have hK : c.K pointer = some e.1 := ((Prod.mk.injEq _ _ _ _).mp hee.symm).1
        have hstr : keyStr e.1 = keyStr k := by
          have := hkp
          rw [hK] at this
          exact this
        have : e.1 = k := halias e (List.mem_append_left _ he) (k, v)
          (List.mem_append_right _ (List.mem_cons_self _ _)) hstr
        rw [hK, this]
      have hpredeq : ∀ e : JSKey × ν,
          (!(keyProp (some e.1) == keyStr k)) = (!(keyStr e.1 == keyStr k)) := by
        intro e
        rfl
      have hent' : entriesList (set c k v) = (absSet acc k v).map
          (fun e => (some e.1, some e.2)) := by
        rw [hentries, hent, hKp]
        unfold absSet
        rw [List.map_cons]
        congr 1
        rw [List.filter_map]
        rfl
      obtain ⟨L', hinv, hrec, hcaprec⟩ := fold_entries_aux rest (set c k v) L2
        (absSet acc k v) inv' hent'
        (by rw [hsz', hcap']; simp only [List.length_cons] at hsz; omega) halias'
      exact ⟨L', hinv, by rw [hrec], by rw [hcaprec, hcap']⟩

end LRU

namespace LRU

/-- The aliased pair sequence `[[1, 10], ["1", 20]]` with a `length`
property of 2, as an array-like iterable. -/
def c9alias : JSIterable Nat :=
  { pairs := [((.num 1), 10), ((.str ("1")), 20)]
    sizeProp := none
    lengthProp := some 2 }

/-- C9 is false on the code for sequences containing a numeric key and a
string key that print the same: `from([[1, 10], ["1", 20]])` (length 2, so
capacity 2) treats `"1"` as a duplicate of `1` via property-string
coercion, so only one entry survives — and its key is the number `1`, not
the pair's own key — whereas the claim promises both pairs surviving in
MRU-first order. -/
theorem C9_counterexample :
    (fromIter c9alias none).map entriesList = Except.ok [(some (.num 1), some 20)] := by
  rfl

/-- C9 amended: for an alias-free pair sequence (no two keys coercing to
the same property string unless equal) with a nonzero known length in the
supported range, `from(pairs)` defaults its capacity to that length and its
`entries()` is exactly the MRU-first list of the pairs with later pairs
more recent and only the last value retained for a duplicated key; when
neither a `size` nor a `length` property is available, the capacity
defaults to 0 and construction fails with the invalid-capacity error. -/
theorem C9_from_roundtrip {ν : Type} (it : JSIterable ν)
    (halias : ∀ e₁, e₁ ∈ it.pairs → ∀ e₂, e₂ ∈ it.pairs →
      keyStr e₁.1 = keyStr e₂.1 → e₁.1 = e₂.1) :
    (defaultCap it = it.pairs.length → it.pairs.length ≠ 0 →
        it.pairs.length ≤ 4294967296 →
      ∃ c, fromIter it none = Except.ok c ∧ c.capacity = it.pairs.length ∧
        entriesList c = (absFold it.pairs).map (fun e => (some e.1, some e.2)))
  ∧ (it.sizeProp = none → it.lengthProp = none →
      fromIter it none = Except.error CacheError.invalidCapacity) := by
  constructor
  · intro hdef hne hle
    have hok : (construct (.num (defaultCap it)) : Except CacheError (Cache ν))
        = .ok (emptyCache (defaultCap it)) := by
      rw [hdef]
      exact construct_nat _ (by omega) hle
    have hsz0 : (emptyCache (defaultCap it) : Cache ν).sz + it.pairs.length
        ≤ (emptyCache (defaultCap it) : Cache ν).capacity := by
      show 0 + it.pairs.length ≤ defaultCap it
      rw [hdef]
      omega
    obtain ⟨L', hinv, hent, hcap⟩ := fold_entries_aux it.pairs
      (emptyCache (defaultCap it) : Cache ν) [] []
      (CacheInv.empty (by rw [hdef]; omega))
      (by rw [show entriesList (emptyCache (defaultCap it) : Cache ν) = [] from rfl]; rfl)
      hsz0
      (by simpa using halias)
    refine ⟨it.pairs.foldl (fun c kv => set c kv.1 kv.2) (emptyCache (defaultCap it)),
      ?_, ?_, ?_⟩
    · have hunf : fromIter it none
          = Except.map (fun c => it.pairs.foldl (fun c kv => set c kv.1 kv.2) c)
              (construct (JSVal.num (defaultCap it))) := rfl
      rw [hunf, hok]
      rfl
    · rw [hcap]
      rw [show (emptyCache (defaultCap it) : Cache ν).capacity = defaultCap it from rfl, hdef]
    · rw [hent]
      rfl
  · intro hs hl
    unfold fromIter defaultCap jsOrD
    rw [hs, hl]
    rfl

/-- The `Map`-like iterable of the repository's `from` test. -/
def c9wit : JSIterable Nat :=
  { pairs := [((.str ("one")), 1), ((.str ("two")), 2)]
    sizeProp := some 2
    lengthProp := none }

theorem C9_from_roundtrip_witness :
    (defaultCap c9wit = c9wit.pairs.length → c9wit.pairs.length ≠ 0 →
        c9wit.pairs.length ≤ 4294967296 →
      ∃ c, fromIter c9wit none = Except.ok c ∧ c.capacity = c9wit.pairs.length ∧
        entriesList c = (absFold c9wit.pairs).map (fun e => (some e.1, some e.2)))
  ∧ (c9wit.sizeProp = none → c9wit.lengthProp = none →
      fromIter c9wit none = Except.error CacheError.invalidCapacity) :=
  C9_from_roundtrip c9wit (by decide)

end LRU
